import Mathlib

/-!
Verification development for the access-json query engine
(src/query.rs, src/query_parser.rs, src/query_executor.rs).

The Rust sources are shallowly embedded as executable Lean definitions:

* serde_json::Value is the inductive JSON below; serde_json::Map is a
  BTreeMap with String keys, embedded as a key-sorted association list
  built by repeated insertion (later duplicate keys replace earlier ones,
  iteration is in key order), see collectObj.
* QueryExecutor and its operations are translated function by function
  from query_executor.rs.  Rust Vec stacks whose operations are push,
  pop and last_mut become Lean lists with the TOP of the stack at the
  HEAD (so Rust's output[0], the bottom, is the list's last element);
  current_path, which next_step scans from index 0, keeps the Rust
  order (index 0 first, push appends at the end).
* Rust panics (panic!, assert!, unwrap and expect on None) are the
  RunErr.panicked outcome; Err(QueryExecErr) values are RunErr.execErr.
  debug_assert! and debug_assert_eq! are no-ops in a release build and
  are not modelled.
* The String payloads of QueryExecErr.InternalError are kept, but where
  the Rust code interpolates debug data into the message only the fixed
  prefix of the format string is kept.
* Documents are the mutual inductive Doc: the part of the serde data
  model this crate's Serializer implementation handles (primitives,
  unit, strings, newtype structs, unit / newtype / struct / tuple
  variants, sequences and tuples with or without a known length,
  string- or arbitrarily-keyed maps, and structs).  serializeDoc plays
  the role of serde's Serialize::serialize driving the executor: each
  Doc constructor's clause is the corresponding serialize_* method of
  the Serializer impl for &mut QueryExecutor, and the element loops are
  the SerializeSeq / SerializeMap / SerializeStruct / Serialize*Variant
  impls.  Rust integer primitives (i8..u64) are modelled with Int;
  floats, chars and bytes are not needed by any claim and are omitted.
-/

/-- One access element of a query: a named field or an array index
(QueryElement in query.rs).  usize indices are modelled as Nat: every index
a Rust caller can hold fits, and no operation on indices can overflow. -/
inductive QueryElement where
  | Field (name : String)
  | ArrayItem (index : Nat)
deriving DecidableEq, Repr

/-- QueryElement::field. -/
def QueryElement.field (name : String) : QueryElement := .Field name

/-- QueryElement::array_item. -/
def QueryElement.array_item (index : Nat) : QueryElement := .ArrayItem index

/-- A query: the JSONQuery struct of query.rs. -/
structure JSONQuery where
  elements : List QueryElement
deriving DecidableEq, Repr

/-- serde_json::Value. -/
inductive JSON where
  | null
  | bool (b : Bool)
  | num (n : Int)
  | str (s : String)
  | arr (items : List JSON)
  | obj (entries : List (String × JSON))
deriving Repr, BEq

/-- One insertion into a BTreeMap<String, Value> represented as a key-sorted
association list: an existing key's value is replaced, a new key is placed
in order. -/
def insertSorted (k : String) (v : JSON) : List (String × JSON) → List (String × JSON)
  | [] => [(k, v)]
  | (k2, v2) :: tl =>
    if k = k2 then (k, v) :: tl
    else if k < k2 then (k, v) :: (k2, v2) :: tl
    else (k2, v2) :: insertSorted k v tl

/-- Collecting an iterator of pairs into a BTreeMap<String, Value>
(the .collect() in OutputStackFrame::finish). -/
def collectObj (ps : List (String × JSON)) : List (String × JSON) :=
  ps.foldl (fun acc kv => insertSorted kv.1 kv.2 acc) []

/-- The State enum of query_executor.rs. -/
inductive State where
  | StartMap
  | MapKey
  | MapKeyStr (s : String)
  | MapValue
  | Sequence (idx len : Nat)
deriving DecidableEq, Repr

/-- The ElementKind enum of query_executor.rs. -/
inductive ElementKind where
  | Root
  | List
  | Map
deriving DecidableEq, Repr

/-- OutputStackFrame of query_executor.rs.  The item and key/value vectors
grow at the end, as Rust Vec::push does. -/
structure OutputStackFrame where
  kind : ElementKind
  list_items : List JSON
  map_keys : List String
  map_values : List JSON
deriving Repr, BEq

/-- OutputStackFrame::default (kind Root, all vectors empty). -/
def OutputStackFrame.default : OutputStackFrame := ⟨.Root, [], [], []⟩

/-- OutputStackFrame::list. -/
def OutputStackFrame.list : OutputStackFrame := ⟨.List, [], [], []⟩

/-- OutputStackFrame::map. -/
def OutputStackFrame.map : OutputStackFrame := ⟨.Map, [], [], []⟩

/-- OutputStackFrame::push_item (the debug_assert is a release no-op). -/
def OutputStackFrame.push_item (fr : OutputStackFrame) (item : JSON) : OutputStackFrame :=
  { fr with kind := .List, list_items := fr.list_items ++ [item] }

/-- OutputStackFrame::push_key. -/
def OutputStackFrame.push_key (fr : OutputStackFrame) (item : String) : OutputStackFrame :=
  { fr with kind := .Map, map_keys := fr.map_keys ++ [item] }

/-- OutputStackFrame::push_value. -/
def OutputStackFrame.push_value (fr : OutputStackFrame) (item : JSON) : OutputStackFrame :=
  { fr with kind := .Map, map_values := fr.map_values ++ [item] }

/-- How a run of the executor can stop early: with a Rust panic, or with an
Err(QueryExecErr) value. -/
inductive QueryExecErr where
  | EmptyQuery
  | InternalError (msg : String)
  | Serialization (msg : String)
deriving DecidableEq, Repr

/-- A Rust panic (panics are fatal and carry no recoverable value) or a
returned QueryExecErr. -/
inductive RunErr where
  | panicked
  | execErr (e : QueryExecErr)
deriving DecidableEq, Repr

/-- OutputStackFrame::finish; the Root arm is a panic!. -/
def OutputStackFrame.finish (fr : OutputStackFrame) : Except RunErr JSON :=
  match fr.kind with
  | .Root => .error .panicked
  | .List => .ok (.arr fr.list_items)
  | .Map => .ok (.obj (collectObj (fr.map_keys.zip fr.map_values)))

/-- OutputStackFrame::push: fold a finished child frame into this frame. -/
def OutputStackFrame.pushFrame (fr : OutputStackFrame) (complex : OutputStackFrame) :
    Except RunErr OutputStackFrame := do
  let value ← complex.finish
  match fr.kind with
  | .Root => .ok (fr.push_item value)
  | .List => .ok (fr.push_item value)
  | .Map => .ok (fr.push_value value)

/-- The NextStep enum of query_executor.rs (the borrowed slices become
owned lists). -/
inductive NextStep where
  | NotMatching
  | Found (e : QueryElement)
  | IsMatch (relative : List QueryElement)
deriving DecidableEq, Repr

/-- QueryExecutor of query_executor.rs.  state and output keep the stack TOP
at the head of the list; current_path keeps Rust's order (index 0 first). -/
structure QueryExecutor where
  query : List QueryElement
  current_path : List QueryElement
  state : List State
  output : List OutputStackFrame
deriving Repr

/-- QueryExecutor::new.  The Rust function returns Result but has no error
path (in particular it never checks for an empty query, so EmptyQuery is
never produced); the model returns the executor directly. -/
def QueryExecutor.new (query : JSONQuery) : QueryExecutor :=
  ⟨query.elements, [], [], [OutputStackFrame.default]⟩

/-- The loop of QueryExecutor::next_step, walking query and current_path
from index 0. -/
def nextStepList : List QueryElement → List QueryElement → NextStep
  | [], path => .IsMatch path
  | e :: _, [] => .Found e
  | e :: q, p :: path => if e = p then nextStepList q path else .NotMatching

/-- QueryExecutor::next_step. -/
def QueryExecutor.next_step (s : QueryExecutor) : NextStep :=
  nextStepList s.query s.current_path

/-- QueryExecutor::relative_path. -/
def QueryExecutor.relative_path (s : QueryExecutor) : Option (List QueryElement) :=
  match s.next_step with
  | .IsMatch relative => some relative
  | _ => none

/-- QueryExecutor::is_match. -/
def QueryExecutor.is_match (s : QueryExecutor) : Bool :=
  s.relative_path.isSome

/-- QueryExecutor::possible_result.  The caller passes `found` already
converted to a Value, playing serde_json::to_value(found) (which cannot fail
on the primitives this is called with).  Both unwraps on an empty stack and
the panic! in the MapKey / MapKeyStr arms are panics. -/
def QueryExecutor.possible_result (s : QueryExecutor) (found : JSON) :
    Except RunErr QueryExecutor :=
  if s.is_match then
    match s.output with
    | [] => .error .panicked
    | fr :: frs =>
      match s.state with
      | [] => .error .panicked
      | st :: _ =>
        match st with
        | .MapKey => .error .panicked
        | .MapKeyStr _ => .error .panicked
        | .StartMap => .ok { s with output := fr.push_value found :: frs }
        | .MapValue => .ok { s with output := fr.push_value found :: frs }
        | .Sequence _ _ => .ok { s with output := fr.push_item found :: frs }
  else .ok s

/-- QueryExecutor::get_result.  Rust reads self.output[0], the BOTTOM of the
stack (the last element of the top-first list); indexing an empty Vec is a
panic.  The debug_assert on the stack height is a release no-op. -/
def QueryExecutor.get_result (s : QueryExecutor) : Except RunErr (Option JSON) :=
  match s.output.getLast? with
  | none => .error .panicked
  | some output =>
    match output.kind with
    | .Root => .ok output.list_items.head?
    | .List => .ok output.list_items.head?
    | .Map => .ok output.map_values.head?

/-- QueryExecutor::enter_name: returns whether the scope was entered,
together with the updated executor. -/
def QueryExecutor.enter_name (s : QueryExecutor) (name : String) :
    Except RunErr (Bool × QueryExecutor) :=
  match s.next_step with
  | .IsMatch _ =>
    match s.output with
    | [] => .error .panicked
    | fr :: frs =>
      .ok (true, { s with output := fr.push_key name :: frs,
                          current_path := s.current_path ++ [QueryElement.Field name] })
  | .Found (.Field f) =>
    if name = f then
      .ok (true, { s with current_path := s.current_path ++ [QueryElement.Field name] })
    else .ok (false, s)
  | _ => .ok (false, s)

/-- QueryExecutor::must_enter_name. -/
def QueryExecutor.must_enter_name (s : QueryExecutor) (name : String) :
    Except RunErr QueryExecutor :=
  let s := { s with current_path := s.current_path ++ [QueryElement.Field name] }
  if s.is_match then
    match s.output with
    | [] => .error .panicked
    | fr :: frs => .ok { s with output := fr.push_key name :: frs }
  else .ok s

/-- QueryExecutor::exit_name: pop current_path (the name argument is only
used by a release no-op debug_assert). -/
def QueryExecutor.exit_name (s : QueryExecutor) : QueryExecutor :=
  { s with current_path := s.current_path.dropLast }

/-- QueryExecutor::enter_sequence; length.expect("All sequences have
lengths?") panics on None (the output push happens first, as in the
source). -/
def QueryExecutor.enter_sequence (s : QueryExecutor) (length : Option Nat) :
    Except RunErr QueryExecutor :=
  let s := if s.is_match then { s with output := OutputStackFrame.list :: s.output } else s
  match length with
  | none => .error .panicked
  | some len => .ok { s with state := .Sequence 0 len :: s.state }

/-- QueryExecutor::enter_index. -/
def QueryExecutor.enter_index (s : QueryExecutor) (index : Nat) :
    Bool × QueryExecutor :=
  let should_enter :=
    match s.next_step with
    | .NotMatching => false
    | .Found (.ArrayItem x) => index = x
    | .Found _ => false
    | .IsMatch _ => true
  if should_enter then
    (true, { s with current_path := s.current_path ++ [QueryElement.ArrayItem index] })
  else (false, s)

/-- QueryExecutor::exit_index (the debug_assert is a release no-op). -/
def QueryExecutor.exit_index (s : QueryExecutor) : QueryExecutor :=
  { s with current_path := s.current_path.dropLast }

/-- QueryExecutor::exit_sequence. -/
def QueryExecutor.exit_sequence (s : QueryExecutor) : Except RunErr QueryExecutor := do
  let s ←
    if s.is_match then
      match s.output with
      | top :: fr :: frs => do
        let fr ← fr.pushFrame top
        pure { s with output := fr :: frs }
      | _ => .error .panicked
    else pure s
  match s.state with
  | .Sequence _ _ :: tl => .ok { s with state := tl }
  | _ => .error (.execErr (.InternalError "Bad exit_sequence state"))

/-- QueryExecutor::enter_map. -/
def QueryExecutor.enter_map (s : QueryExecutor) : QueryExecutor :=
  let s := if s.is_match then { s with output := OutputStackFrame.map :: s.output } else s
  { s with state := .StartMap :: s.state }

/-- QueryExecutor::exit_map.  Vec::pop on an empty state stack is None and
the debug_assert on it is a release no-op, so the state is just dropped. -/
def QueryExecutor.exit_map (s : QueryExecutor) : Except RunErr QueryExecutor := do
  let s ←
    if s.is_match ∧ s.output.length > 1 then
      match s.output with
      | top :: fr :: frs => do
        let fr ← fr.pushFrame top
        pure { s with output := fr :: frs }
      | _ => .error .panicked
    else pure s
  .ok { s with state := s.state.tail }

/-- QueryExecutor::enter_map_key. -/
def QueryExecutor.enter_map_key (s : QueryExecutor) : QueryExecutor :=
  { s with state := .MapKey :: s.state }

/-- QueryExecutor::exit_map_key (the source interpolates the current path
into the message; only the fixed prefix is kept). -/
def QueryExecutor.exit_map_key (s : QueryExecutor) : Except RunErr QueryExecutor :=
  match s.state with
  | .MapKeyStr _ :: _ => .ok s
  | _ => .error (.execErr (.InternalError "Map key not a simple String!"))

/-- QueryExecutor::enter_map_value; the non-MapKeyStr arm is a panic!. -/
def QueryExecutor.enter_map_value (s : QueryExecutor) : Except RunErr QueryExecutor :=
  match s.state with
  | .MapKeyStr _ :: _ => .ok { s with state := .MapValue :: s.state }
  | _ => .error .panicked

/-- QueryExecutor::exit_map_value: pop MapValue, pop MapKeyStr and exit the
name, pop MapKey, with an InternalError for each unexpected shape. -/
def QueryExecutor.exit_map_value (s : QueryExecutor) : Except RunErr QueryExecutor :=
  match s.state with
  | .MapValue :: tl =>
    match tl with
    | .MapKeyStr _ :: tl2 =>
      let s := QueryExecutor.exit_name { s with state := tl2 }
      match s.state with
      | .MapKey :: tl3 => .ok { s with state := tl3 }
      | _ => .error (.execErr (.InternalError "Expected MapKey state"))
    | _ => .error (.execErr (.InternalError "Expected MapKeyStr state"))
  | _ => .error (.execErr (.InternalError "Expected MapValue state"))

/-- Serializer::serialize_str for &mut QueryExecutor: a str seen while the
top state is MapKey becomes the pending key (MapKeyStr pushed, then
must_enter_name); a second str for the same key and a str with no state at
all are InternalErrors; otherwise it is an ordinary possible_result. -/
def QueryExecutor.serialize_str (s : QueryExecutor) (v : String) :
    Except RunErr QueryExecutor :=
  match s.state with
  | .MapKey :: _ =>
    QueryExecutor.must_enter_name { s with state := .MapKeyStr v :: s.state } v
  | .MapKeyStr _ :: _ =>
    .error (.execErr (.InternalError "Shouldn't see multiple str for the same key!"))
  | _ :: _ => s.possible_result (.str v)
  | [] => .error (.execErr (.InternalError "&str value with no state!"))

mutual
/-- The fragment of the serde data model that can drive the executor.
Lists of children are the mutual types DocList / FieldList / EntryList so
that all recursions stay structural.  seqD covers serialize_seq with a
known length as well as serialize_tuple and serialize_tuple_struct (which
always pass Some(len)); seqNoLen is serialize_seq(None).  mapD is
serialize_map (keys may be arbitrary documents, as serde allows); structD
is serialize_struct.  unitD covers serialize_unit, serialize_unit_struct
and serialize_none, whose bodies coincide. -/
inductive Doc where
  | boolD (b : Bool)
  | intD (n : Int)
  | strD (v : String)
  | unitD
  | unitVariant (variant : String)
  | newtypeStruct (value : Doc)
  | newtypeVariant (variant : String) (value : Doc)
  | seqD (items : DocList)
  | seqNoLen (items : DocList)
  | structD (fields : FieldList)
  | mapD (entries : EntryList)
  | structVariant (variant : String) (fields : FieldList)
  | tupleVariant (variant : String) (items : DocList)

inductive DocList where
  | dnil
  | dcons (hd : Doc) (tl : DocList)

inductive FieldList where
  | fnil
  | fcons (key : String) (value : Doc) (tl : FieldList)

inductive EntryList where
  | enil
  | econs (key : Doc) (value : Doc) (tl : EntryList)
end

/-- Length of a DocList (the len serde hands to serialize_seq for a
Vec / tuple). -/
def DocList.length : DocList → Nat
  | .dnil => 0
  | .dcons _ tl => tl.length + 1

mutual
/-- The function Serialize::serialize of a document driving a mutable
QueryExecutor (see the module comment).  Each
arm is the corresponding serialize_* method of the Serializer impl in
query_executor.rs.  serialize_some(v) forwards to v and serialize_none to
serialize_unit, so Option layers are already flattened in Doc. -/
def serializeDoc : Doc → QueryExecutor → Except RunErr QueryExecutor
  | .boolD b, s => s.possible_result (.bool b)
  | .intD n, s => s.possible_result (.num n)
  | .strD v, s => s.serialize_str v
  | .unitD, s => s.possible_result .null
  | .unitVariant variant, s => s.serialize_str variant
  | .newtypeStruct value, s => serializeDoc value s
  | .newtypeVariant variant value, s => do
    let (entered, s) ← s.enter_name variant
    if entered then do
      let s ← serializeDoc value s
      pure s.exit_name
    else pure s
  | .seqD items, s => do
    let s ← s.enter_sequence (some items.length)
    let s ← serializeItems items s
    s.exit_sequence
  | .seqNoLen items, s => do
    let s ← s.enter_sequence none
    let s ← serializeItems items s
    s.exit_sequence
  | .structD fields, s => do
    let s := s.enter_map
    let s ← serializeFields fields s
    s.exit_map
  | .mapD entries, s => do
    let s := s.enter_map
    let s ← serializeEntries entries s
    s.exit_map
  | .structVariant variant fields, s => do
    let s := s.enter_map
    let s ← s.must_enter_name variant
    let s ← serializeFields fields s
    let s ← s.exit_map
    pure s.exit_name
  | .tupleVariant variant items, s => do
    let s := s.enter_map
    let s ← s.must_enter_name variant
    let s ← s.enter_sequence (some items.length)
    let s ← serializeItems items s
    let s ← s.exit_sequence
    let s ← s.exit_map
    pure s.exit_name

/-- SerializeSeq::serialize_element for each item, with
QueryExecutor::sequence_element inlined (pop the Sequence state, assert
idx < len, push the advanced counter, then enter_index gates the child). -/
def serializeItems : DocList → QueryExecutor → Except RunErr QueryExecutor
  | .dnil, s => .ok s
  | .dcons hd tl, s =>
    match s.state with
    | .Sequence idx len :: strest =>
      if idx < len then
        let s1 := { s with state := .Sequence (idx + 1) len :: strest }
        match s1.enter_index idx with
        | (true, s2) => do
          let s3 ← serializeDoc hd s2
          serializeItems tl s3.exit_index
        | (false, s2) => serializeItems tl s2
      else .error .panicked
    | _ => .error .panicked

/-- SerializeStruct::serialize_field (also SerializeStructVariant's) for
each field: the value is serialized only when enter_name accepts it. -/
def serializeFields : FieldList → QueryExecutor → Except RunErr QueryExecutor
  | .fnil, s => .ok s
  | .fcons key value tl, s => do
    let (entered, s) ← s.enter_name key
    if entered then do
      let s ← serializeDoc value s
      serializeFields tl s.exit_name
    else serializeFields tl s

/-- SerializeMap::serialize_key then serialize_value for each entry. -/
def serializeEntries : EntryList → QueryExecutor → Except RunErr QueryExecutor
  | .enil, s => .ok s
  | .econs key value tl, s => do
    let s := s.enter_map_key
    let s ← serializeDoc key s
    let s ← s.exit_map_key
    let s ← s.enter_map_value
    let s ← serializeDoc value s
    let s ← s.exit_map_value
    serializeEntries tl s
end

/-- JSONQuery::execute of query.rs, specialised to the Doc documents:
build a fresh executor, drive it with the document's self-description,
extract the result.  A Rust panic is the panicked outcome. -/
def executeQuery (query : JSONQuery) (target : Doc) : Except RunErr (Option JSON) := do
  let runner := QueryExecutor.new query
  let runner ← serializeDoc target runner
  runner.get_result

/-- executeQuery on a bare element list. -/
def execQ (elements : List QueryElement) (target : Doc) : Except RunErr (Option JSON) :=
  executeQuery ⟨elements⟩ target

/-- The error enum QueryParseErr of query_parser.rs; each Nat is the
character index the parser reports. -/
inductive QueryParseErr where
  | BadCharacter (pos : Nat)
  | MissingField
  | MissingNumber (pos : Nat)
  | BadArray (pos : Nat)
  | BadField (pos : Nat)
  | UnexpectedEOF (expected : Char)
  | Unexpected (pos : Nat) (expected : Char)
  | BadIndex (pos : Nat) (msg : String)
deriving DecidableEq, Repr

/-- The Parser struct of query_parser.rs: the characters of the input and
the current position. -/
structure Parser where
  data : List Char
  position : Nat
deriving Repr

/-- Parser::from(input): all characters, position 0. -/
def Parser.fromInput (input : List Char) : Parser := ⟨input, 0⟩

/-- Parser::peek. -/
def Parser.peek (p : Parser) : Option Char := p.data.get? p.position

/-- Parser::advance: the peeked character, and the parser with position
advanced by one (the position advances even past the end, as in the
source). -/
def Parser.advance (p : Parser) : Option Char × Parser :=
  (p.peek, { p with position := p.position + 1 })

/-- Parser::consume. -/
def Parser.consume (p : Parser) (expected : Char) : Except QueryParseErr Parser :=
  match p.advance with
  | (none, _) => .error (.UnexpectedEOF expected)
  | (some actual, p1) =>
    if actual = expected then .ok p1
    else .error (.Unexpected (p1.position - 1) expected)


/-- The digit-collecting loop of Parser::read_array.  The first argument is
the characters not yet visited, always equal to p.data.drop p.position (the
wrapper readArrayLoop establishes this and every recursive call preserves
it, since advancing the position by one drops one more character); peeking
at its head is exactly the source's self.advance().  Advance until ']'
(accepted), a non-digit (BadArray at the previous position) or the end of
the input (accepted with whatever digits were seen, as in the source; the
position still advances past the end, as Rust's advance does). -/
def readArrayLoopA : List Char → Parser → List Char →
    Except QueryParseErr (List Char × Parser)
  | [], p, digits => .ok (digits, { p with position := p.position + 1 })
  | ch :: rest, p, digits =>
    if ch = ']' then .ok (digits, { p with position := p.position + 1 })
    else if ch.isDigit then
      readArrayLoopA rest { p with position := p.position + 1 } (digits ++ [ch])
    else .error (.BadArray ((p.position + 1) - 1))

/-- The while-let loop of Parser::read_array over the parser's remaining
characters. -/
def readArrayLoop (p : Parser) (digits : List Char) :
    Except QueryParseErr (List Char × Parser) :=
  readArrayLoopA (p.data.drop p.position) p digits

/-- The value of a run of decimal digits (digits.parse::<usize>() in
read_array).  usize overflow cannot happen for any index a Rust value can
actually contain, so the model's parse is total and BadIndex unreachable. -/
def digitsToNat (digits : List Char) : Nat :=
  digits.foldl (fun acc c => acc * 10 + (c.toNat - '0'.toNat)) 0

/-- Parser::read_array. -/
def Parser.read_array (p : Parser) : Except QueryParseErr (QueryElement × Parser) := do
  let p ← p.consume '['
  let start := p.position
  let (digits, p) ← readArrayLoop p []
  if digits.isEmpty then .error (.MissingNumber start)
  else .ok (.ArrayItem (digitsToNat digits), p)

/-- The identifier-collecting loop of Parser::read_field, over the not yet
visited characters exactly as in readArrayLoopA: peek until '.', '[' or
the end of the input (accepted, the position left on the terminator), or
whitespace (BadField at position - 1, as in the source, where position
still sits on the offending character); any other character is consumed
(the source's self.consume(ch) on the peeked character always succeeds)
and collected.  Rust char::is_whitespace is modelled by Char.isWhitespace
(both accept the blanks the grammar's users can write). -/
def readFieldLoopA : List Char → Parser → List Char →
    Except QueryParseErr (List Char × Parser)
  | [], p, id => .ok (id, p)
  | ch :: rest, p, id =>
    if ch = '.' ∨ ch = '[' then .ok (id, p)
    else if ch.isWhitespace then .error (.BadField (p.position - 1))
    else readFieldLoopA rest { p with position := p.position + 1 } (id ++ [ch])

/-- The while-let loop of Parser::read_field over the parser's remaining
characters. -/
def readFieldLoop (p : Parser) (id : List Char) :
    Except QueryParseErr (List Char × Parser) :=
  readFieldLoopA (p.data.drop p.position) p id

/-- Parser::read_field. -/
def Parser.read_field (p : Parser) : Except QueryParseErr (QueryElement × Parser) := do
  let p ← p.consume '.'
  let (id, p) ← readFieldLoop p []
  if id.isEmpty then .error .MissingField
  else .ok (.Field (String.mk id), p)

/-- Parser::next: None at the end of the input, an element parsed from '['
or '.', BadCharacter otherwise. -/
def Parser.next (p : Parser) : Except QueryParseErr (Option (QueryElement × Parser)) :=
  match p.data.get? p.position with
  | some ch =>
    if ch = '[' then (p.read_array).map some
    else if ch = '.' then (p.read_field).map some
    else .error (.BadCharacter p.position)
  | none => .ok none

/-- The while-let loop of parse_query: collect elements from Parser::next
until it produces None; any error aborts the whole parse with no partial
result.  The Nat argument bounds the number of loop iterations: every
successful Parser::next advances the position by at least one (theorem
next_advances below), so with the initial bound data.length + 1 the zero
arm is unreachable; it is an error rather than a result so that it could
never stand in for a successful parse. -/
def parseLoopA : Nat → Parser → Except QueryParseErr (List QueryElement)
  | 0, p => .error (.BadCharacter p.position)
  | fuel + 1, p =>
    match p.next with
    | .error e => .error e
    | .ok none => .ok []
    | .ok (some (el, p1)) =>
      match parseLoopA fuel p1 with
      | .error e => .error e
      | .ok rest => .ok (el :: rest)

/-- parse_query of query_parser.rs on a list of characters (Rust collects
input.chars() into the parser's data). -/
def parse_query (input : List Char) : Except QueryParseErr (List QueryElement) :=
  parseLoopA (input.length + 1) ⟨input, 0⟩

/-- JSONQuery::parse. -/
def JSONQuery.parse (input : String) : Except QueryParseErr JSONQuery :=
  match parse_query input.toList with
  | .error e => .error e
  | .ok elements => .ok ⟨elements⟩

/-- The character of one decimal digit value. -/
def digitChar (d : Nat) : Char := Char.ofNat ('0'.toNat + d)

/-- Decimal digits, most significant first; the first argument only bounds
the recursion depth (dividing by ten at least halves the value, so a bound
equal to the value itself is always enough, and the zero arm is reached
only with a one-digit value). -/
def natDigitsA : Nat → Nat → List Char
  | 0, n => [digitChar n]
  | fuel + 1, n =>
    if n < 10 then [digitChar n]
    else natDigitsA fuel (n / 10) ++ [digitChar (n % 10)]

/-- The decimal digits of a Nat, most significant first: what Rust's
write!("{}", index) produces for a usize. -/
def natDigits (n : Nat) : List Char := natDigitsA n n

/-- The Display impl for QueryElement in query.rs: ".name" for a field,
"[n]" for an array index. -/
def renderElement : QueryElement → List Char
  | .Field name => '.' :: name.toList
  | .ArrayItem index => '[' :: natDigits index ++ [']']

/-- The Display impl for JSONQuery: the elements' renderings concatenated. -/
def renderQuery (elements : List QueryElement) : List Char :=
  (elements.map renderElement).flatten

/-- Convenience constructor: a DocList from a List. -/
def docList (l : List Doc) : DocList :=
  l.foldr (fun d acc => .dcons d acc) .dnil

/-- Convenience constructor: a FieldList from a List of pairs. -/
def fieldList (l : List (String × Doc)) : FieldList :=
  l.foldr (fun kv acc => .fcons kv.1 kv.2 acc) .fnil

/-- Convenience constructor: an EntryList from a List of pairs. -/
def entryList (l : List (Doc × Doc)) : EntryList :=
  l.foldr (fun kv acc => .econs kv.1 kv.2 acc) .enil

/-- A leaf document: one whose whole serialization is a single primitive
self-description (newtype struct wrappers are transparent; a unit variant
serializes as a bare string). -/
def isLeafDoc : Doc → Bool
  | .boolD _ => true
  | .intD _ => true
  | .strD _ => true
  | .unitD => true
  | .unitVariant _ => true
  | .newtypeStruct d => isLeafDoc d
  | _ => false

/-- The JSON value of a leaf document (what serde_json::to_value produces
for it); .null for non-leaves, where it is never used. -/
def primValue : Doc → JSON
  | .boolD b => .bool b
  | .intD n => .num n
  | .strD v => .str v
  | .unitD => .null
  | .unitVariant c => .str c
  | .newtypeStruct d => primValue d
  | _ => .null

mutual
/-- Well-formed documents: every sequence knows its length, every map key
is a plain string, and the field names of each struct / struct variant and
the keys of each map are pairwise distinct (so each path addresses at most
one node). -/
def wfDoc : Doc → Bool
  | .boolD _ => true
  | .intD _ => true
  | .strD _ => true
  | .unitD => true
  | .unitVariant _ => true
  | .newtypeStruct d => wfDoc d
  | .newtypeVariant _ d => wfDoc d
  | .seqD items => wfItems items
  | .seqNoLen _ => false
  | .structD fields => wfFields fields && nodupFields fields
  | .mapD entries => wfEntries entries && nodupEntries entries
  | .structVariant _ fields => wfFields fields && nodupFields fields
  | .tupleVariant _ items => wfItems items

/-- All items well-formed. -/
def wfItems : DocList → Bool
  | .dnil => true
  | .dcons hd tl => wfDoc hd && wfItems tl

/-- All field values well-formed. -/
def wfFields : FieldList → Bool
  | .fnil => true
  | .fcons _ v tl => wfDoc v && wfFields tl

/-- All keys are string documents and all values well-formed. -/
def wfEntries : EntryList → Bool
  | .enil => true
  | .econs k v tl =>
    (match k with
     | .strD _ => true
     | _ => false) && wfDoc v && wfEntries tl

/-- The given name is not a field name of the list. -/
def notFieldName (f : String) : FieldList → Bool
  | .fnil => true
  | .fcons k _ tl => decide (k ≠ f) && notFieldName f tl

/-- Pairwise distinct field names. -/
def nodupFields : FieldList → Bool
  | .fnil => true
  | .fcons k _ tl => notFieldName k tl && nodupFields tl

/-- The given name is not a (string) key of the entry list. -/
def notEntryKey (f : String) : EntryList → Bool
  | .enil => true
  | .econs k _ tl =>
    (match k with
     | .strD k2 => decide (k2 ≠ f)
     | _ => true) && notEntryKey f tl

/-- Pairwise distinct string keys. -/
def nodupEntries : EntryList → Bool
  | .enil => true
  | .econs k _ tl =>
    (match k with
     | .strD k2 => notEntryKey k2 tl
     | _ => true) && nodupEntries tl
end

/-- A document whose root, through transparent wrappers and variant case
names, is a container: serializing it pushes a container State before any
string or primitive of it is offered. -/
def containerRoot : Doc → Bool
  | .seqD _ => true
  | .structD _ => true
  | .mapD _ => true
  | .structVariant _ _ => true
  | .tupleVariant _ _ => true
  | .newtypeStruct d => containerRoot d
  | .newtypeVariant _ d => containerRoot d
  | _ => false

/-- A document that can stand at the root of an execute call without the
executor seeing a string (or a matched primitive) while its state stack is
still empty: a container after transparent wrappers, or a bare non-string
primitive. -/
def rootSafe : Doc → Bool
  | .boolD _ => true
  | .intD _ => true
  | .unitD => true
  | .newtypeStruct d => rootSafe d
  | d => containerRoot d

mutual
/-- The node of a document at a path, addressed exactly as the executor's
current_path addresses it: struct fields and string map keys are Field
steps, sequence items ArrayItem steps, a variant's case name one Field
step, newtype struct wrappers transparent.  The body of a struct or tuple
variant addressed exactly at its case name is the corresponding bare
container. -/
def nodeAt : Doc → List QueryElement → Option Doc
  | d, [] => some d
  | .newtypeStruct d, qs => nodeAt d qs
  | .structD fields, .Field f :: r => nodeAtFields fields f r
  | .mapD entries, .Field f :: r => nodeAtEntries entries f r
  | .seqD items, .ArrayItem i :: r => nodeAtItems items i r
  | .newtypeVariant c d, .Field f :: r => if f = c then nodeAt d r else none
  | .structVariant c fields, .Field f :: r =>
    if f = c then
      match r with
      | [] => some (.structD fields)
      | .Field f2 :: r2 => nodeAtFields fields f2 r2
      | _ => none
    else none
  | .tupleVariant c items, .Field f :: r =>
    if f = c then
      match r with
      | [] => some (.seqD items)
      | .ArrayItem i :: r2 => nodeAtItems items i r2
      | _ => none
    else none
  | _, _ => none

/-- nodeAt through a struct's fields: the first field of the given name. -/
def nodeAtFields : FieldList → String → List QueryElement → Option Doc
  | .fnil, _, _ => none
  | .fcons k v tl, f, r => if k = f then nodeAt v r else nodeAtFields tl f r

/-- nodeAt through a map's entries: the first string key of the given
name (non-string keys address nothing). -/
def nodeAtEntries : EntryList → String → List QueryElement → Option Doc
  | .enil, _, _ => none
  | .econs k v tl, f, r =>
    match k with
    | .strD k2 => if k2 = f then nodeAt v r else nodeAtEntries tl f r
    | _ => nodeAtEntries tl f r

/-- nodeAt through a sequence's items. -/
def nodeAtItems : DocList → Nat → List QueryElement → Option Doc
  | .dnil, _, _ => none
  | .dcons hd tl, i, r =>
    match i with
    | 0 => nodeAt hd r
    | i2 + 1 => nodeAtItems tl i2 r
end

/-- What one leaf hit contributes to the innermost output frame: an item
(push_item), a bare value (push_value), or a key and a value (push_key then
push_value, for a map value addressed exactly by the query, whose key is
recorded by must_enter_name). -/
inductive Hit where
  | item (v : JSON)
  | val (v : JSON)
  | keyed (k : String) (v : JSON)
deriving Repr, BEq

/-- Apply an optional hit to an output frame. -/
def applyHit : Option Hit → OutputStackFrame → OutputStackFrame
  | none, fr => fr
  | some (.item v), fr => fr.push_item v
  | some (.val v), fr => (fr.push_value v)
  | some (.keyed k v), fr => (fr.push_key k).push_value v

/-- The hit for a leaf found at the end of the query: an item inside a
sequence state, a value otherwise. -/
def mkLeafHit (asItem : Bool) (v : JSON) : Hit :=
  if asItem then .item v else .val v

/-- Whether the head of a state stack is a Sequence state (then a matched
primitive is recorded with push_item rather than push_value). -/
def isSeqHead : List State → Bool
  | .Sequence _ _ :: _ => true
  | _ => false

mutual
/-- The hit a pending traversal of a document with remaining query qs
records on the innermost output frame: the leaf at qs, if any, shaped by
where it sits (asItem tells whether the surrounding state, relevant only
when a variant payload is the leaf, is a Sequence). -/
def hitOf (asItem : Bool) : Doc → List QueryElement → Option Hit
  | .newtypeStruct d, qs => hitOf asItem d qs
  | .structD fields, .Field f :: r => hitFields fields f r
  | .mapD entries, .Field f :: r => hitEntries entries f r
  | .seqD items, .ArrayItem i :: r => hitItems items i r
  | .newtypeVariant c d, .Field f :: r =>
    if f = c then
      match r with
      | [] => if isLeafDoc d then some (mkLeafHit asItem (primValue d)) else none
      | _ => hitOf asItem d r
    else none
  | .structVariant c fields, .Field f :: r =>
    if f = c then
      match r with
      | .Field f2 :: r2 => hitFields fields f2 r2
      | _ => none
    else none
  | .tupleVariant c items, .Field f :: r =>
    if f = c then
      match r with
      | .ArrayItem i :: r2 => hitItems items i r2
      | _ => none
    else none
  | _, _ => none

/-- hitOf through struct fields (a field value sits in StartMap state, so
a leaf there is a bare push_value). -/
def hitFields : FieldList → String → List QueryElement → Option Hit
  | .fnil, _, _ => none
  | .fcons k v tl, f, r =>
    if k = f then
      match r with
      | [] => if isLeafDoc v then some (.val (primValue v)) else none
      | _ => hitOf false v r
    else hitFields tl f r

/-- hitOf through map entries (a map value addressed exactly by the query
also records its key). -/
def hitEntries : EntryList → String → List QueryElement → Option Hit
  | .enil, _, _ => none
  | .econs k v tl, f, r =>
    match k with
    | .strD k2 =>
      if k2 = f then
        match r with
        | [] => if isLeafDoc v then some (.keyed f (primValue v)) else none
        | _ => hitOf false v r
      else hitEntries tl f r
    | _ => hitEntries tl f r

/-- hitOf through sequence items, the Nat counting down to the expected
index. -/
def hitItems : DocList → Nat → List QueryElement → Option Hit
  | .dnil, _, _ => none
  | .dcons hd tl, i, r =>
    match i with
    | 0 =>
      match r with
      | [] => if isLeafDoc hd then some (.item (primValue hd)) else none
      | _ => hitOf true hd r
    | i2 + 1 => hitItems tl i2 r
end

/-- The head of the state stack is not a pending-map-key state (under such
a head serialize_str would be read as a key, never as a value). -/
def headNotKey : List State → Prop
  | .MapKey :: _ => False
  | .MapKeyStr _ :: _ => False
  | _ => True

/-- The field names of a struct, in order. -/
def fieldNames : FieldList → List String
  | .fnil => []
  | .fcons k _ tl => k :: fieldNames tl

/-- The string keys of a map's entries, in order (non-string keys are
excluded: they never extend the current path). -/
def entryKeys : EntryList → List String
  | .enil => []
  | .econs (.strD k) _ tl => k :: entryKeys tl
  | .econs _ _ tl => entryKeys tl

/-- Every node the option holds is a leaf. -/
def leafOnly (o : Option Doc) : Prop :=
  ∀ n, o = some n → isLeafDoc n = true

/-- The Dog / Example document used throughout the crate's tests:
a struct with a name, an age and a list of favorites. -/
def exampleDog : Doc :=
  .structD (.fcons "name" (.strD "Buddy")
    (.fcons "age" (.intD 14)
      (.fcons "favorites" (.seqD (.dcons (.strD "walks") (.dcons (.strD "naps") .dnil)))
        .fnil)))

/-- The Pet enum vector of the crate's test_enum_examples: a unit variant,
a newtype variant wrapping a struct, a struct variant and a tuple
variant. -/
def examplePets : Doc :=
  .seqD (.dcons (.unitVariant "Bird")
    (.dcons (.newtypeVariant "Dog"
        (.structD (.fcons "name" (.strD "Buddy") (.fcons "age" (.intD 14) .fnil))))
      (.dcons (.structVariant "Cat" (.fcons "lives" (.intD 9) .fnil))
        (.dcons (.tupleVariant "Digits"
            (.dcons (.intD 7) (.dcons (.intD 5) (.dcons (.intD 6) .dnil))))
          .dnil))))

/-- A map that offers the same key twice: both values are recorded at the
root output frame during one execute. -/
def exampleDupMap : Doc :=
  .mapD (.econs (.strD "a") (.intD 1) (.econs (.strD "a") (.intD 2) .enil))

/-- A struct whose field m is a map with a non-string (integer) key; the
query .m makes that map's location matched. -/
def exampleBadKeyMatched : Doc :=
  .structD (.fcons "m" (.mapD (.econs (.intD 3) (.intD 4) .enil)) .fnil)

/-- A map whose value under a holds a map with a non-string (integer) key;
a query for .b never matches any of it. -/
def exampleBadKeyUnmatched : Doc :=
  .mapD (.econs (.strD "a") (.mapD (.econs (.intD 3) (.intD 4) .enil)) .enil)

/-- A field name the query grammar can express: non-empty, and free of the
characters that stop or derail Parser::read_field (a dot or an opening
bracket ends the identifier, whitespace is rejected). -/
def wfFieldName (name : String) : Bool :=
  !name.toList.isEmpty &&
    name.toList.all fun c => !(c == '.') && !(c == '[') && !c.isWhitespace

/-- Every Field element of the query carries a grammar-expressible name
(ArrayItem elements are always expressible). -/
def wfElements (q : List QueryElement) : Bool :=
  q.all fun e =>
    match e with
    | .Field n => wfFieldName n
    | .ArrayItem _ => true

/-- A character list at which Parser::read_field stops cleanly: exhausted,
or sitting on the next element's leading dot or bracket. -/
def fieldStopper : List Char → Prop
  | [] => True
  | c :: _ => c = '.' ∨ c = '['

/-- The matching state at a current path that the query extends: a match
when nothing of the query remains, otherwise the next expected element. -/
theorem ns_self_app (cp qs : List QueryElement) :
    nextStepList (cp ++ qs) cp =
      (match qs with
       | [] => .IsMatch []
       | e :: _ => .Found e) := by
  induction cp with
  | nil => cases qs <;> simp [nextStepList]
  | cons p cp ih => simp [nextStepList, ih]

/-- A current path that has diverged from the query stays diverged when it
grows. -/
theorem ns_extend_notMatching {q cp : List QueryElement} (x : QueryElement)
    (h : nextStepList q cp = .NotMatching) :
    nextStepList q (cp ++ [x]) = .NotMatching := by
  induction cp generalizing q with
  | nil =>
    cases q with
    | nil => simp [nextStepList] at h
    | cons e q => simp [nextStepList] at h
  | cons p cp ih =>
    cases q with
    | nil => simp [nextStepList] at h
    | cons e q =>
      simp only [nextStepList, List.cons_append] at h ⊢
      by_cases he : e = p
      · simp only [he, if_pos rfl] at h ⊢
        exact ih h
      · simp [he]

/-- Pushing an element other than the expected one onto the current path
diverges from the query. -/
theorem ns_extend_found_ne {q cp : List QueryElement} {e : QueryElement}
    (x : QueryElement) (h : nextStepList q cp = .Found e) (hx : x ≠ e) :
    nextStepList q (cp ++ [x]) = .NotMatching := by
  induction cp generalizing q with
  | nil =>
    cases q with
    | nil => simp [nextStepList] at h
    | cons e2 q =>
      simp only [nextStepList] at h
      cases h
      simp only [List.nil_append, nextStepList]
      rw [if_neg (fun hh => hx hh.symm)]
  | cons p cp ih =>
    cases q with
    | nil => simp [nextStepList] at h
    | cons e2 q =>
      simp only [nextStepList, List.cons_append] at h ⊢
      by_cases he : e2 = p
      · simp only [he, if_pos rfl] at h ⊢
        exact ih h
      · simp [he] at h

/-- is_match of an executor, by its next_step. -/
theorem is_match_mk (q cp : List QueryElement) (st : List State)
    (out : List OutputStackFrame) :
    (QueryExecutor.mk q cp st out).is_match =
      (match nextStepList q cp with
       | .IsMatch _ => true
       | _ => false) := by
  cases h : nextStepList q cp <;>
    simp [QueryExecutor.is_match, QueryExecutor.relative_path, QueryExecutor.next_step, h]

/-- A container-rooted document is root safe. -/
theorem rootSafe_of_containerRoot : ∀ (d : Doc), containerRoot d = true → rootSafe d = true
  | .newtypeStruct d, h => by
    simp only [containerRoot] at h
    simp only [rootSafe]
    exact rootSafe_of_containerRoot d h
  | .newtypeVariant c d, h => by
    simp only [containerRoot] at h
    simp only [rootSafe, containerRoot]
    exact h
  | .seqD _, _ | .structD _, _ | .mapD _, _ | .structVariant _ _, _ | .tupleVariant _ _, _ => rfl
  | .boolD _, h | .intD _, h | .strD _, h | .unitD, h | .unitVariant _, h
  | .seqNoLen _, h => by simp [containerRoot] at h

/-- A container-rooted document is not a leaf. -/
theorem not_leaf_of_containerRoot : ∀ (d : Doc), containerRoot d = true → isLeafDoc d = false
  | .newtypeStruct d, h => by
    simp only [containerRoot] at h
    simp only [isLeafDoc]
    exact not_leaf_of_containerRoot d h
  | .seqD _, _ | .structD _, _ | .mapD _, _ | .structVariant _ _, _ | .tupleVariant _ _, _
  | .newtypeVariant _ _, _ => rfl
  | .boolD _, h | .intD _, h | .strD _, h | .unitD, h | .unitVariant _, h
  | .seqNoLen _, h => by simp [containerRoot] at h

/-- possible_result on a matched executor with a non-key state head:
push_item under a Sequence head, push_value otherwise. -/
theorem possible_result_matched {q cp rel : List QueryElement} {st : State}
    {stt : List State} {fr : OutputStackFrame} {frs : List OutputStackFrame}
    (v : JSON) (hns : nextStepList q cp = .IsMatch rel)
    (hk : headNotKey (st :: stt)) :
    QueryExecutor.possible_result ⟨q, cp, st :: stt, fr :: frs⟩ v =
      .ok ⟨q, cp, st :: stt,
        (if isSeqHead (st :: stt) then fr.push_item v else fr.push_value v) :: frs⟩ := by
  cases st with
  | MapKey => exact absurd hk (by simp [headNotKey])
  | MapKeyStr s2 => exact absurd hk (by simp [headNotKey])
  | StartMap => simp [QueryExecutor.possible_result, is_match_mk, hns, isSeqHead]
  | MapValue => simp [QueryExecutor.possible_result, is_match_mk, hns, isSeqHead]
  | Sequence i l => simp [QueryExecutor.possible_result, is_match_mk, hns, isSeqHead]

/-- possible_result on an unmatched executor does nothing. -/
theorem possible_result_unmatched {q cp : List QueryElement} {st : List State}
    {out : List OutputStackFrame} (v : JSON)
    (hns : ∀ rel, nextStepList q cp ≠ .IsMatch rel) :
    QueryExecutor.possible_result ⟨q, cp, st, out⟩ v = .ok ⟨q, cp, st, out⟩ := by
  cases h : nextStepList q cp with
  | IsMatch rel => exact absurd h (hns rel)
  | NotMatching => simp [QueryExecutor.possible_result, is_match_mk, h]
  | Found e => simp [QueryExecutor.possible_result, is_match_mk, h]

/-- Serializing a leaf document in a matched state records exactly its
primitive value on the innermost frame: an item under a Sequence head, a
value otherwise. -/
theorem leafMatched : ∀ (d : Doc), isLeafDoc d = true →
    ∀ {q cp rel : List QueryElement} {st : State} {stt : List State}
      {fr : OutputStackFrame} {frs : List OutputStackFrame},
    nextStepList q cp = .IsMatch rel →
    headNotKey (st :: stt) →
    serializeDoc d ⟨q, cp, st :: stt, fr :: frs⟩ =
      .ok ⟨q, cp, st :: stt,
        applyHit (some (mkLeafHit (isSeqHead (st :: stt)) (primValue d))) fr :: frs⟩
  | .boolD b, _, q, cp, rel, st, stt, fr, frs, hns, hk => by
    rw [serializeDoc, possible_result_matched _ hns hk]
    cases st <;> simp_all [applyHit, mkLeafHit, isSeqHead, primValue, headNotKey]
  | .intD n, _, q, cp, rel, st, stt, fr, frs, hns, hk => by
    rw [serializeDoc, possible_result_matched _ hns hk]
    cases st <;> simp_all [applyHit, mkLeafHit, isSeqHead, primValue, headNotKey]
  | .unitD, _, q, cp, rel, st, stt, fr, frs, hns, hk => by
    rw [serializeDoc, possible_result_matched _ hns hk]
    cases st <;> simp_all [applyHit, mkLeafHit, isSeqHead, primValue, headNotKey]
  | .strD v, _, q, cp, rel, st, stt, fr, frs, hns, hk => by
    rw [serializeDoc]
    cases st with
    | MapKey => exact absurd hk (by simp [headNotKey])
    | MapKeyStr s2 => exact absurd hk (by simp [headNotKey])
    | StartMap =>
      rw [show QueryExecutor.serialize_str ⟨q, cp, .StartMap :: stt, fr :: frs⟩ v =
        QueryExecutor.possible_result ⟨q, cp, .StartMap :: stt, fr :: frs⟩ (.str v) from rfl]
      rw [possible_result_matched _ hns hk]
      simp [applyHit, mkLeafHit, isSeqHead, primValue]
    | MapValue =>
      rw [show QueryExecutor.serialize_str ⟨q, cp, .MapValue :: stt, fr :: frs⟩ v =
        QueryExecutor.possible_result ⟨q, cp, .MapValue :: stt, fr :: frs⟩ (.str v) from rfl]
      rw [possible_result_matched _ hns hk]
      simp [applyHit, mkLeafHit, isSeqHead, primValue]
    | Sequence i l =>
      rw [show QueryExecutor.serialize_str ⟨q, cp, .Sequence i l :: stt, fr :: frs⟩ v =
        QueryExecutor.possible_result ⟨q, cp, .Sequence i l :: stt, fr :: frs⟩ (.str v) from rfl]
      rw [possible_result_matched _ hns hk]
      simp [applyHit, mkLeafHit, isSeqHead, primValue]
  | .unitVariant c, _, q, cp, rel, st, stt, fr, frs, hns, hk => by
    rw [serializeDoc]
    cases st with
    | MapKey => exact absurd hk (by simp [headNotKey])
    | MapKeyStr s2 => exact absurd hk (by simp [headNotKey])
    | StartMap =>
      rw [show QueryExecutor.serialize_str ⟨q, cp, .StartMap :: stt, fr :: frs⟩ c =
        QueryExecutor.possible_result ⟨q, cp, .StartMap :: stt, fr :: frs⟩ (.str c) from rfl]
      rw [possible_result_matched _ hns hk]
      simp [applyHit, mkLeafHit, isSeqHead, primValue]
    | MapValue =>
      rw [show QueryExecutor.serialize_str ⟨q, cp, .MapValue :: stt, fr :: frs⟩ c =
        QueryExecutor.possible_result ⟨q, cp, .MapValue :: stt, fr :: frs⟩ (.str c) from rfl]
      rw [possible_result_matched _ hns hk]
      simp [applyHit, mkLeafHit, isSeqHead, primValue]
    | Sequence i l =>
      rw [show QueryExecutor.serialize_str ⟨q, cp, .Sequence i l :: stt, fr :: frs⟩ c =
        QueryExecutor.possible_result ⟨q, cp, .Sequence i l :: stt, fr :: frs⟩ (.str c) from rfl]
      rw [possible_result_matched _ hns hk]
      simp [applyHit, mkLeafHit, isSeqHead, primValue]
  | .newtypeStruct d, hleaf, q, cp, rel, st, stt, fr, frs, hns, hk => by
    rw [serializeDoc]
    have hl2 : isLeafDoc d = true := by simpa [isLeafDoc] using hleaf
    rw [leafMatched d hl2 hns hk]
    simp [primValue]
  | .newtypeVariant _ _, hleaf, _, _, _, _, _, _, _, _, _ => by simp [isLeafDoc] at hleaf
  | .seqD _, hleaf, _, _, _, _, _, _, _, _, _ => by simp [isLeafDoc] at hleaf
  | .seqNoLen _, hleaf, _, _, _, _, _, _, _, _, _ => by simp [isLeafDoc] at hleaf
  | .structD _, hleaf, _, _, _, _, _, _, _, _, _ => by simp [isLeafDoc] at hleaf
  | .mapD _, hleaf, _, _, _, _, _, _, _, _, _ => by simp [isLeafDoc] at hleaf
  | .structVariant _ _, hleaf, _, _, _, _, _, _, _, _, _ => by simp [isLeafDoc] at hleaf
  | .tupleVariant _ _, hleaf, _, _, _, _, _, _, _, _, _ => by simp [isLeafDoc] at hleaf

/-- A struct-field loop in which no field can be entered (the traversal has
diverged, or expects an element that is no field of this struct) leaves the
executor unchanged. -/
theorem fields_sweep : ∀ (fs : FieldList) {q cp : List QueryElement}
    {st : List State} {out : List OutputStackFrame},
    (match nextStepList q cp with
     | .IsMatch _ => False
     | .Found (.Field f) => f ∉ fieldNames fs
     | _ => True) →
    serializeFields fs ⟨q, cp, st, out⟩ = .ok ⟨q, cp, st, out⟩
  | .fnil, _, _, _, _, _ => rfl
  | .fcons k v tl, q, cp, st, out, hmiss => by
    rw [serializeFields]
    cases hns : nextStepList q cp with
    | IsMatch rel => rw [hns] at hmiss; exact absurd hmiss (by simp)
    | NotMatching =>
      rw [hns] at hmiss
      have he : QueryExecutor.enter_name ⟨q, cp, st, out⟩ k = .ok (false, ⟨q, cp, st, out⟩) := by
        simp [QueryExecutor.enter_name, QueryExecutor.next_step, hns]
      rw [he]
      exact fields_sweep tl (by rw [hns]; trivial)
    | Found e =>
      rw [hns] at hmiss
      cases e with
      | ArrayItem i =>
        have he : QueryExecutor.enter_name ⟨q, cp, st, out⟩ k = .ok (false, ⟨q, cp, st, out⟩) := by
          simp [QueryExecutor.enter_name, QueryExecutor.next_step, hns]
        rw [he]
        exact fields_sweep tl (by rw [hns]; trivial)
      | Field f =>
        have hk : k ≠ f := fun hkf => hmiss (by simp [fieldNames, hkf])
        have he : QueryExecutor.enter_name ⟨q, cp, st, out⟩ k = .ok (false, ⟨q, cp, st, out⟩) := by
          simp [QueryExecutor.enter_name, QueryExecutor.next_step, hns, hk]
        rw [he]
        exact fields_sweep tl (by
          rw [hns]
          exact fun hf => hmiss (by simp [fieldNames, hf]))

/-- A sequence-element loop in which no index can be entered only advances
the element counter. -/
theorem items_sweep : ∀ (xs : DocList) {q cp : List QueryElement}
    (idx len : Nat) {stt : List State} {out : List OutputStackFrame},
    idx + xs.length ≤ len →
    (match nextStepList q cp with
     | .IsMatch _ => False
     | .Found (.ArrayItem x) => ∀ j, idx ≤ j → j ≠ x
     | _ => True) →
    serializeItems xs ⟨q, cp, .Sequence idx len :: stt, out⟩ =
      .ok ⟨q, cp, .Sequence (idx + xs.length) len :: stt, out⟩
  | .dnil, q, cp, idx, len, stt, out, _, _ => by
    simp [serializeItems, DocList.length]
  | .dcons hd tl, q, cp, idx, len, stt, out, hlen, hmiss => by
    rw [serializeItems]
    dsimp only
    have hl2 : idx + (DocList.length tl + 1) ≤ len := by
      simpa [DocList.length] using hlen
    have hidx : idx < len := by omega
    rw [if_pos hidx]
    have hee : QueryExecutor.enter_index ⟨q, cp, .Sequence (idx + 1) len :: stt, out⟩ idx =
        (false, ⟨q, cp, .Sequence (idx + 1) len :: stt, out⟩) := by
      cases hns : nextStepList q cp with
      | IsMatch rel => rw [hns] at hmiss; exact absurd hmiss (by simp)
      | NotMatching => simp [QueryExecutor.enter_index, QueryExecutor.next_step, hns]
      | Found e =>
        rw [hns] at hmiss
        cases e with
        | Field f => simp [QueryExecutor.enter_index, QueryExecutor.next_step, hns]
        | ArrayItem x =>
          have : idx ≠ x := hmiss idx (Nat.le_refl idx)
          simp [QueryExecutor.enter_index, QueryExecutor.next_step, hns, this]
    rw [hee]
    dsimp only
    rw [items_sweep tl (idx + 1) len (by omega)
      (by
        cases hns : nextStepList q cp with
        | IsMatch rel => rw [hns] at hmiss; exact absurd hmiss (by simp)
        | NotMatching => trivial
        | Found e =>
          rw [hns] at hmiss
          cases e with
          | Field f => trivial
          | ArrayItem x => exact fun j hj => hmiss j (by omega))]
    have harith : idx + 1 + DocList.length tl = idx + DocList.length (.dcons hd tl) := by
      simp [DocList.length]
      omega
    rw [harith]

mutual
/-- A well-formed document serialized while the current path has diverged
from the query leaves the executor unchanged: nothing is recorded, every
entered scope is exited, and no error is raised. -/
theorem offPath_doc : ∀ (d : Doc) {q cp : List QueryElement} {st : List State}
    {out : List OutputStackFrame}, wfDoc d = true →
    nextStepList q cp = .NotMatching → st ≠ [] → headNotKey st →
    serializeDoc d ⟨q, cp, st, out⟩ = .ok ⟨q, cp, st, out⟩
  | .boolD b, q, cp, st, out, _, hns, _, _ => by
    rw [serializeDoc, possible_result_unmatched _ (by simp [hns])]
  | .intD n, q, cp, st, out, _, hns, _, _ => by
    rw [serializeDoc, possible_result_unmatched _ (by simp [hns])]
  | .unitD, q, cp, st, out, _, hns, _, _ => by
    rw [serializeDoc, possible_result_unmatched _ (by simp [hns])]
  | .strD v, q, cp, st, out, _, hns, hne, hk => by
    rw [serializeDoc]
    match st, hne with
    | h :: t, _ =>
      cases h with
      | MapKey => exact absurd hk (by simp [headNotKey])
      | MapKeyStr s2 => exact absurd hk (by simp [headNotKey])
      | StartMap => exact possible_result_unmatched _ (by simp [hns])
      | MapValue => exact possible_result_unmatched _ (by simp [hns])
      | Sequence i l => exact possible_result_unmatched _ (by simp [hns])
  | .unitVariant c, q, cp, st, out, _, hns, hne, hk => by
    rw [serializeDoc]
    match st, hne with
    | h :: t, _ =>
      cases h with
      | MapKey => exact absurd hk (by simp [headNotKey])
      | MapKeyStr s2 => exact absurd hk (by simp [headNotKey])
      | StartMap => exact possible_result_unmatched _ (by simp [hns])
      | MapValue => exact possible_result_unmatched _ (by simp [hns])
      | Sequence i l => exact possible_result_unmatched _ (by simp [hns])
  | .newtypeStruct d, q, cp, st, out, hwf, hns, hne, hk => by
    rw [serializeDoc]
    exact offPath_doc d (by simpa [wfDoc] using hwf) hns hne hk
  | .newtypeVariant c d, q, cp, st, out, _, hns, _, _ => by
    rw [serializeDoc]
    have he : QueryExecutor.enter_name ⟨q, cp, st, out⟩ c = .ok (false, ⟨q, cp, st, out⟩) := by
      simp [QueryExecutor.enter_name, QueryExecutor.next_step, hns]
    rw [he]
    rfl
  | .seqD xs, q, cp, st, out, hwf, hns, hne, hk => by
    rw [serializeDoc]
    have h1 : QueryExecutor.enter_sequence ⟨q, cp, st, out⟩ (some xs.length) =
        .ok ⟨q, cp, .Sequence 0 xs.length :: st, out⟩ := by
      simp [QueryExecutor.enter_sequence, is_match_mk, hns]
    rw [h1]
    have h2 := @items_sweep xs (q) (cp) 0 xs.length (st) (out)
      (by omega) (by rw [hns]; trivial)
    simp only [bind, Except.bind, h2]
    simp [QueryExecutor.exit_sequence, is_match_mk, hns]
  | .seqNoLen xs, q, cp, st, out, hwf, hns, hne, hk => by
    simp [wfDoc] at hwf
  | .structD fs, q, cp, st, out, hwf, hns, hne, hk => by
    rw [serializeDoc]
    have h1 : QueryExecutor.enter_map ⟨q, cp, st, out⟩ = ⟨q, cp, .StartMap :: st, out⟩ := by
      simp [QueryExecutor.enter_map, is_match_mk, hns]
    rw [h1]
    have h2 := @fields_sweep fs (q) (cp) (.StartMap :: st) (out)
      (by rw [hns]; trivial)
    simp only [bind, Except.bind, h2]
    simp [QueryExecutor.exit_map, is_match_mk, hns]
  | .mapD es, q, cp, st, out, hwf, hns, hne, hk => by
    rw [serializeDoc]
    have h1 : QueryExecutor.enter_map ⟨q, cp, st, out⟩ = ⟨q, cp, .StartMap :: st, out⟩ := by
      simp [QueryExecutor.enter_map, is_match_mk, hns]
    rw [h1]
    have h2 := @entries_offPath es (q) (cp) (.StartMap :: st) (out)
      (by simp [wfDoc] at hwf; exact hwf.1) (by rw [hns]; trivial)
    simp only [bind, Except.bind, h2]
    simp [QueryExecutor.exit_map, is_match_mk, hns]
  | .structVariant c fs, q, cp, st, out, hwf, hns, hne, hk => by
    rw [serializeDoc]
    have hns2 : nextStepList q (cp ++ [.Field c]) = .NotMatching :=
      ns_extend_notMatching _ hns
    have h1 : QueryExecutor.enter_map ⟨q, cp, st, out⟩ = ⟨q, cp, .StartMap :: st, out⟩ := by
      simp [QueryExecutor.enter_map, is_match_mk, hns]
    rw [h1]
    have h2 : QueryExecutor.must_enter_name ⟨q, cp, .StartMap :: st, out⟩ c =
        .ok ⟨q, cp ++ [QueryElement.Field c], .StartMap :: st, out⟩ := by
      simp [QueryExecutor.must_enter_name, is_match_mk, hns2]
    simp only [bind, Except.bind, h2]
    have h3 := @fields_sweep fs (q) (cp ++ [QueryElement.Field c]) (.StartMap :: st) (out) (by rw [hns2]; trivial)
    simp only [h3]
    have h4 : QueryExecutor.exit_map ⟨q, cp ++ [QueryElement.Field c], .StartMap :: st, out⟩ =
        .ok ⟨q, cp ++ [QueryElement.Field c], st, out⟩ := by
      simp [QueryExecutor.exit_map, is_match_mk, hns2]
    simp only [h4]
    simp [QueryExecutor.exit_name, pure, Except.pure, List.dropLast_concat]
  | .tupleVariant c xs, q, cp, st, out, hwf, hns, hne, hk => by
    rw [serializeDoc]
    have hns2 : nextStepList q (cp ++ [.Field c]) = .NotMatching :=
      ns_extend_notMatching _ hns
    have h1 : QueryExecutor.enter_map ⟨q, cp, st, out⟩ = ⟨q, cp, .StartMap :: st, out⟩ := by
      simp [QueryExecutor.enter_map, is_match_mk, hns]
    rw [h1]
    have h2 : QueryExecutor.must_enter_name ⟨q, cp, .StartMap :: st, out⟩ c =
        .ok ⟨q, cp ++ [QueryElement.Field c], .StartMap :: st, out⟩ := by
      simp [QueryExecutor.must_enter_name, is_match_mk, hns2]
    simp only [bind, Except.bind, h2]
    have h3 : QueryExecutor.enter_sequence ⟨q, cp ++ [QueryElement.Field c], .StartMap :: st, out⟩
        (some xs.length) =
        .ok ⟨q, cp ++ [QueryElement.Field c], .Sequence 0 xs.length :: .StartMap :: st, out⟩ := by
      simp [QueryExecutor.enter_sequence, is_match_mk, hns2]
    simp only [h3]
    have h4 := @items_sweep xs (q) (cp ++ [QueryElement.Field c]) 0 xs.length (.StartMap :: st) (out) (by omega) (by rw [hns2]; trivial)
    simp only [h4]
    have h5 : QueryExecutor.exit_sequence
        ⟨q, cp ++ [QueryElement.Field c], .Sequence (0 + xs.length) xs.length :: .StartMap :: st, out⟩ =
        .ok ⟨q, cp ++ [QueryElement.Field c], .StartMap :: st, out⟩ := by
      simp [QueryExecutor.exit_sequence, is_match_mk, hns2]
    simp only [h5]
    have h6 : QueryExecutor.exit_map ⟨q, cp ++ [QueryElement.Field c], .StartMap :: st, out⟩ =
        .ok ⟨q, cp ++ [QueryElement.Field c], st, out⟩ := by
      simp [QueryExecutor.exit_map, is_match_mk, hns2]
    simp only [h6]
    simp [QueryExecutor.exit_name, pure, Except.pure, List.dropLast_concat]

/-- A map-entry loop in which no entry's key can put the traversal back on
the query's path leaves the executor unchanged (each value is still fully
traversed, as the protocol requires, but records nothing). -/
theorem entries_offPath : ∀ (es : EntryList) {q cp : List QueryElement}
    {st : List State} {out : List OutputStackFrame}, wfEntries es = true →
    (match nextStepList q cp with
     | .IsMatch _ => False
     | .Found (.Field f) => f ∉ entryKeys es
     | _ => True) →
    serializeEntries es ⟨q, cp, st, out⟩ = .ok ⟨q, cp, st, out⟩
  | .enil, q, cp, st, out, _, _ => rfl
  | .econs k v tl, q, cp, st, out, hwf, hmiss => by
    match k, hwf with
    | .strD k2, hwf =>
      have hwfv : wfDoc v = true := by
        simp [wfEntries] at hwf
        exact hwf.1
      have hwft : wfEntries tl = true := by
        simp [wfEntries] at hwf
        exact hwf.2
      have hns2 : nextStepList q (cp ++ [.Field k2]) = .NotMatching := by
        cases hns : nextStepList q cp with
        | IsMatch rel => rw [hns] at hmiss; exact absurd hmiss (by simp)
        | NotMatching => exact ns_extend_notMatching _ hns
        | Found e =>
          rw [hns] at hmiss
          refine ns_extend_found_ne _ hns ?_
          cases e with
          | ArrayItem i => simp
          | Field f =>
            intro hfe
            cases hfe
            exact hmiss (by simp [entryKeys])
      rw [serializeEntries]
      have h1 : QueryExecutor.enter_map_key ⟨q, cp, st, out⟩ = ⟨q, cp, .MapKey :: st, out⟩ := rfl
      have h2 : serializeDoc (.strD k2) ⟨q, cp, .MapKey :: st, out⟩ =
          .ok ⟨q, cp ++ [QueryElement.Field k2], .MapKeyStr k2 :: .MapKey :: st, out⟩ := by
        rw [serializeDoc]
        rw [show QueryExecutor.serialize_str ⟨q, cp, .MapKey :: st, out⟩ k2 =
          QueryExecutor.must_enter_name
            ⟨q, cp, .MapKeyStr k2 :: .MapKey :: st, out⟩ k2 from rfl]
        simp [QueryExecutor.must_enter_name, is_match_mk, hns2]
      have h3 : QueryExecutor.exit_map_key
          ⟨q, cp ++ [QueryElement.Field k2], .MapKeyStr k2 :: .MapKey :: st, out⟩ =
          .ok ⟨q, cp ++ [QueryElement.Field k2], .MapKeyStr k2 :: .MapKey :: st, out⟩ := rfl
      have h4 : QueryExecutor.enter_map_value
          ⟨q, cp ++ [QueryElement.Field k2], .MapKeyStr k2 :: .MapKey :: st, out⟩ =
          .ok ⟨q, cp ++ [QueryElement.Field k2],
            .MapValue :: .MapKeyStr k2 :: .MapKey :: st, out⟩ := rfl
      have h5 := @offPath_doc v (q) (cp ++ [QueryElement.Field k2]) (.MapValue :: .MapKeyStr k2 :: .MapKey :: st) (out)
        hwfv hns2 (by simp) (by simp [headNotKey])
      have h6 : QueryExecutor.exit_map_value
          ⟨q, cp ++ [QueryElement.Field k2], .MapValue :: .MapKeyStr k2 :: .MapKey :: st, out⟩ =
          .ok ⟨q, cp, st, out⟩ := by
        simp [QueryExecutor.exit_map_value, QueryExecutor.exit_name, List.dropLast_concat]
      simp only [bind, Except.bind, h1, h2, h3, h4, h5, h6]
      refine entries_offPath tl hwft ?_
      cases hns : nextStepList q cp with
      | IsMatch rel => rw [hns] at hmiss; exact absurd hmiss (by simp)
      | NotMatching => trivial
      | Found e =>
        rw [hns] at hmiss
        cases e with
        | ArrayItem i => trivial
        | Field f => exact fun hf => hmiss (by simp [entryKeys, hf])
end

/-- When the query is the current path followed by more elements, the next
step is the first of those elements. -/
theorem ns_found_of_app {q cp r : List QueryElement} {e : QueryElement}
    (hq : q = cp ++ (e :: r)) : nextStepList q cp = .Found e := by
  subst hq
  rw [ns_self_app]

/-- A current path equal to the query is an exact match. -/
theorem ns_isMatch_self (cp : List QueryElement) :
    nextStepList cp cp = .IsMatch [] := by
  have := ns_self_app cp []
  simpa using this

/-- notFieldName really means the name is not among the field names. -/
theorem notFieldName_spec : ∀ (fs : FieldList) {f : String},
    notFieldName f fs = true → f ∉ fieldNames fs
  | .fnil, _, _ => by simp [fieldNames]
  | .fcons k v tl, f, h => by
    simp only [notFieldName, Bool.and_eq_true, decide_eq_true_eq] at h
    simp only [fieldNames, List.mem_cons]
    rintro (hf | hf)
    · exact h.1 hf.symm
    · exact notFieldName_spec tl h.2 hf

/-- notEntryKey really means the name is not among the string keys. -/
theorem notEntryKey_spec : ∀ (es : EntryList) {f : String},
    notEntryKey f es = true → f ∉ entryKeys es
  | .enil, _, _ => by simp [entryKeys]
  | .econs k v tl, f, h => by
    cases k
    case strD k2 =>
      simp only [notEntryKey, Bool.and_eq_true, decide_eq_true_eq] at h
      simp only [entryKeys, List.mem_cons]
      rintro (hf | hf)
      · exact h.1 hf.symm
      · exact notEntryKey_spec tl h.2 hf
    all_goals
      simp only [notEntryKey, Bool.true_and] at h
      simp only [entryKeys]
      exact notEntryKey_spec tl h

mutual
/-- The central pending-match lemma: serializing a well-formed document
while the current path is a strict prefix of the query (qs is what remains)
only records the query's leaf, if the document holds one at qs, on the
innermost output frame, and restores path and state. -/
theorem onPath_doc : ∀ (d : Doc) {q cp qs : List QueryElement} {st : List State}
    {fr : OutputStackFrame} {frs : List OutputStackFrame},
    wfDoc d = true → q = cp ++ qs → qs ≠ [] → headNotKey st →
    (st = [] → rootSafe d = true) →
    leafOnly (nodeAt d qs) →
    serializeDoc d ⟨q, cp, st, fr :: frs⟩ =
      .ok ⟨q, cp, st, applyHit (hitOf (isSeqHead st) d qs) fr :: frs⟩
  | .boolD b, q, cp, qs, st, fr, frs, _, hq, hqs, _, _, _ => by
    cases qs with
    | nil => exact absurd rfl hqs
    | cons e r =>
      rw [serializeDoc, possible_result_unmatched _ (by simp [ns_found_of_app hq])]
      simp [hitOf, applyHit]
  | .intD n, q, cp, qs, st, fr, frs, _, hq, hqs, _, _, _ => by
    cases qs with
    | nil => exact absurd rfl hqs
    | cons e r =>
      rw [serializeDoc, possible_result_unmatched _ (by simp [ns_found_of_app hq])]
      simp [hitOf, applyHit]
  | .unitD, q, cp, qs, st, fr, frs, _, hq, hqs, _, _, _ => by
    cases qs with
    | nil => exact absurd rfl hqs
    | cons e r =>
      rw [serializeDoc, possible_result_unmatched _ (by simp [ns_found_of_app hq])]
      simp [hitOf, applyHit]
  | .strD v, q, cp, qs, st, fr, frs, _, hq, hqs, hk, hsafe, _ => by
    cases qs with
    | nil => exact absurd rfl hqs
    | cons e r =>
      rw [serializeDoc]
      match st, hk, hsafe with
      | [], _, hsafe => simp [rootSafe, containerRoot] at hsafe
      | h :: t, hk, _ =>
        cases h with
        | MapKey => exact absurd hk (by simp [headNotKey])
        | MapKeyStr s2 => exact absurd hk (by simp [headNotKey])
        | StartMap =>
          rw [show QueryExecutor.serialize_str ⟨q, cp, .StartMap :: t, fr :: frs⟩ v =
            QueryExecutor.possible_result ⟨q, cp, .StartMap :: t, fr :: frs⟩ (.str v) from rfl]
          rw [possible_result_unmatched _ (by simp [ns_found_of_app hq])]
          simp [hitOf, applyHit]
        | MapValue =>
          rw [show QueryExecutor.serialize_str ⟨q, cp, .MapValue :: t, fr :: frs⟩ v =
            QueryExecutor.possible_result ⟨q, cp, .MapValue :: t, fr :: frs⟩ (.str v) from rfl]
          rw [possible_result_unmatched _ (by simp [ns_found_of_app hq])]
          simp [hitOf, applyHit]
        | Sequence i l =>
          rw [show QueryExecutor.serialize_str ⟨q, cp, .Sequence i l :: t, fr :: frs⟩ v =
            QueryExecutor.possible_result ⟨q, cp, .Sequence i l :: t, fr :: frs⟩ (.str v) from rfl]
          rw [possible_result_unmatched _ (by simp [ns_found_of_app hq])]
          simp [hitOf, applyHit]
  | .unitVariant c, q, cp, qs, st, fr, frs, _, hq, hqs, hk, hsafe, _ => by
    cases qs with
    | nil => exact absurd rfl hqs
    | cons e r =>
      rw [serializeDoc]
      match st, hk, hsafe with
      | [], _, hsafe => simp [rootSafe, containerRoot] at hsafe
      | h :: t, hk, _ =>
        cases h with
        | MapKey => exact absurd hk (by simp [headNotKey])
        | MapKeyStr s2 => exact absurd hk (by simp [headNotKey])
        | StartMap =>
          rw [show QueryExecutor.serialize_str ⟨q, cp, .StartMap :: t, fr :: frs⟩ c =
            QueryExecutor.possible_result ⟨q, cp, .StartMap :: t, fr :: frs⟩ (.str c) from rfl]
          rw [possible_result_unmatched _ (by simp [ns_found_of_app hq])]
          simp [hitOf, applyHit]
        | MapValue =>
          rw [show QueryExecutor.serialize_str ⟨q, cp, .MapValue :: t, fr :: frs⟩ c =
            QueryExecutor.possible_result ⟨q, cp, .MapValue :: t, fr :: frs⟩ (.str c) from rfl]
          rw [possible_result_unmatched _ (by simp [ns_found_of_app hq])]
          simp [hitOf, applyHit]
        | Sequence i l =>
          rw [show QueryExecutor.serialize_str ⟨q, cp, .Sequence i l :: t, fr :: frs⟩ c =
            QueryExecutor.possible_result ⟨q, cp, .Sequence i l :: t, fr :: frs⟩ (.str c) from rfl]
          rw [possible_result_unmatched _ (by simp [ns_found_of_app hq])]
          simp [hitOf, applyHit]
  | .newtypeStruct d, q, cp, qs, st, fr, frs, hwf, hq, hqs, hk, hsafe, hH => by
    cases qs with
    | nil => exact absurd rfl hqs
    | cons e r =>
      rw [serializeDoc]
      rw [onPath_doc d (by simpa [wfDoc] using hwf) hq (by simp) hk
        (fun h => by simpa [rootSafe] using hsafe h)
        (by simpa [nodeAt] using hH)]
      simp [hitOf]
  | .newtypeVariant c d, q, cp, qs, st, fr, frs, hwf, hq, hqs, hk, hsafe, hH => by
    cases qs with
    | nil => exact absurd rfl hqs
    | cons e r =>
      have hfound := ns_found_of_app hq
      rw [serializeDoc]
      cases e with
      | ArrayItem i =>
        have he : QueryExecutor.enter_name ⟨q, cp, st, fr :: frs⟩ c =
            .ok (false, ⟨q, cp, st, fr :: frs⟩) := by
          simp [QueryExecutor.enter_name, QueryExecutor.next_step, hfound]
        simp only [bind, Except.bind, he]
        simp [hitOf, applyHit, pure, Except.pure]
      | Field f =>
        by_cases hfc : f = c
        · subst hfc
          have hq2 : q = (cp ++ [QueryElement.Field f]) ++ r := by
            rw [hq]; simp
          cases r with
          | nil =>
            have hleaf : isLeafDoc d = true := by
              refine hH d ?_
              simp [nodeAt]
            have hns2 : nextStepList q (cp ++ [QueryElement.Field f]) = .IsMatch [] := by
              rw [hq2]
              simpa using ns_isMatch_self (cp ++ [QueryElement.Field f])
            match st, hk, hsafe with
            | [], _, hsafe =>
              have hcr : containerRoot d = true := by
                simpa [rootSafe, containerRoot] using hsafe rfl
              rw [not_leaf_of_containerRoot d hcr] at hleaf
              cases hleaf
            | h :: t, hk, _ =>
              have he : QueryExecutor.enter_name ⟨q, cp, h :: t, fr :: frs⟩ f =
                  .ok (true, ⟨q, cp ++ [QueryElement.Field f], h :: t, fr :: frs⟩) := by
                simp [QueryExecutor.enter_name, QueryExecutor.next_step, hfound]
              have hlm := @leafMatched d hleaf _ _ _ (h) (t) (fr) (frs) hns2 hk
              simp only [bind, Except.bind, he, hlm]
              simp [QueryExecutor.exit_name, List.dropLast_concat, hitOf, hleaf,
                pure, Except.pure]
          | cons e2 r2 =>
            have he : QueryExecutor.enter_name ⟨q, cp, st, fr :: frs⟩ f =
                .ok (true, ⟨q, cp ++ [QueryElement.Field f], st, fr :: frs⟩) := by
              simp [QueryExecutor.enter_name, QueryExecutor.next_step, hfound]
            have hop := @onPath_doc d _ _ _ (st) (fr) (frs)
              (by simpa [wfDoc] using hwf) hq2 (by simp) hk
              (fun h => rootSafe_of_containerRoot d
                (by simpa [rootSafe, containerRoot] using hsafe h))
              (by simpa [nodeAt] using hH)
            simp only [bind, Except.bind, he, hop]
            simp [QueryExecutor.exit_name, List.dropLast_concat, hitOf, pure, Except.pure]
        · have hcf : ¬(c = f) := fun h => hfc h.symm
          have he : QueryExecutor.enter_name ⟨q, cp, st, fr :: frs⟩ c =
              .ok (false, ⟨q, cp, st, fr :: frs⟩) := by
            simp [QueryExecutor.enter_name, QueryExecutor.next_step, hfound, hcf]
          simp only [bind, Except.bind, he]
          simp [hitOf, applyHit, hfc, pure, Except.pure]
  | .seqD xs, q, cp, qs, st, fr, frs, hwf, hq, hqs, hk, hsafe, hH => by
    cases qs with
    | nil => exact absurd rfl hqs
    | cons e r =>
      have hfound := ns_found_of_app hq
      rw [serializeDoc]
      have h1 : QueryExecutor.enter_sequence ⟨q, cp, st, fr :: frs⟩ (some xs.length) =
          .ok ⟨q, cp, .Sequence 0 xs.length :: st, fr :: frs⟩ := by
        simp [QueryExecutor.enter_sequence, is_match_mk, hfound]
      rw [h1]
      cases e with
      | Field f =>
        have h2 := @items_sweep xs (q) (cp) 0 xs.length (st) (fr :: frs) (by omega) (by rw [hfound]; trivial)
        simp only [bind, Except.bind, h2]
        have h3 : QueryExecutor.exit_sequence
            ⟨q, cp, .Sequence (0 + xs.length) xs.length :: st, fr :: frs⟩ =
            .ok ⟨q, cp, st, fr :: frs⟩ := by
          simp [QueryExecutor.exit_sequence, is_match_mk, hfound]
        simp only [h3]
        simp [hitOf, applyHit]
      | ArrayItem x =>
        have h2 := @onPath_items xs _ _ (x) (r) (0) (xs.length) (st) (fr) (frs)
          (by simpa [wfDoc] using hwf) hq (by omega)
          (by simpa [nodeAt] using hH)
        simp only [bind, Except.bind, h2]
        have h3 : QueryExecutor.exit_sequence
            ⟨q, cp, .Sequence (0 + xs.length) xs.length :: st,
              applyHit (if 0 ≤ x then hitItems xs (x - 0) r else none) fr :: frs⟩ =
            .ok ⟨q, cp, st,
              applyHit (if 0 ≤ x then hitItems xs (x - 0) r else none) fr :: frs⟩ := by
          simp [QueryExecutor.exit_sequence, is_match_mk, hfound]
        simp only [h3]
        simp [hitOf]
  | .seqNoLen xs, q, cp, qs, st, fr, frs, hwf, hq, hqs, hk, hsafe, hH => by
    simp [wfDoc] at hwf
  | .structD fs, q, cp, qs, st, fr, frs, hwf, hq, hqs, hk, hsafe, hH => by
    cases qs with
    | nil => exact absurd rfl hqs
    | cons e r =>
      have hfound := ns_found_of_app hq
      rw [serializeDoc]
      have h1 : QueryExecutor.enter_map ⟨q, cp, st, fr :: frs⟩ =
          ⟨q, cp, .StartMap :: st, fr :: frs⟩ := by
        simp [QueryExecutor.enter_map, is_match_mk, hfound]
      rw [h1]
      cases e with
      | ArrayItem i =>
        have h2 := @fields_sweep fs (q) (cp) (.StartMap :: st) (fr :: frs) (by rw [hfound]; trivial)
        simp only [bind, Except.bind, h2]
        have h3 : QueryExecutor.exit_map ⟨q, cp, .StartMap :: st, fr :: frs⟩ =
            .ok ⟨q, cp, st, fr :: frs⟩ := by
          simp [QueryExecutor.exit_map, is_match_mk, hfound]
        simp only [h3]
        simp [hitOf, applyHit]
      | Field f =>
        have hwf2 : wfFields fs = true ∧ nodupFields fs = true := by
          simpa [wfDoc] using hwf
        have h2 := @onPath_fields fs _ _ (f) (r) (st) (fr) (frs)
          hwf2.1 hwf2.2 hq (by simpa [nodeAt] using hH)
        simp only [bind, Except.bind, h2]
        have h3 : QueryExecutor.exit_map
            ⟨q, cp, .StartMap :: st, applyHit (hitFields fs f r) fr :: frs⟩ =
            .ok ⟨q, cp, st, applyHit (hitFields fs f r) fr :: frs⟩ := by
          simp [QueryExecutor.exit_map, is_match_mk, hfound]
        simp only [h3]
        simp [hitOf]
  | .mapD es, q, cp, qs, st, fr, frs, hwf, hq, hqs, hk, hsafe, hH => by
    cases qs with
    | nil => exact absurd rfl hqs
    | cons e r =>
      have hfound := ns_found_of_app hq
      rw [serializeDoc]
      have h1 : QueryExecutor.enter_map ⟨q, cp, st, fr :: frs⟩ =
          ⟨q, cp, .StartMap :: st, fr :: frs⟩ := by
        simp [QueryExecutor.enter_map, is_match_mk, hfound]
      rw [h1]
      cases e with
      | ArrayItem i =>
        have h2 := @entries_offPath es (q) (cp) (.StartMap :: st) (fr :: frs) (by simp [wfDoc] at hwf; exact hwf.1) (by rw [hfound]; trivial)
        simp only [bind, Except.bind, h2]
        have h3 : QueryExecutor.exit_map ⟨q, cp, .StartMap :: st, fr :: frs⟩ =
            .ok ⟨q, cp, st, fr :: frs⟩ := by
          simp [QueryExecutor.exit_map, is_match_mk, hfound]
        simp only [h3]
        simp [hitOf, applyHit]
      | Field f =>
        have hwf2 : wfEntries es = true ∧ nodupEntries es = true := by
          simpa [wfDoc] using hwf
        have h2 := @onPath_entries es _ _ (f) (r) (.StartMap :: st) (fr) (frs) hwf2.1 hwf2.2 hq (by simpa [nodeAt] using hH)
        simp only [bind, Except.bind, h2]
        have h3 : QueryExecutor.exit_map
            ⟨q, cp, .StartMap :: st, applyHit (hitEntries es f r) fr :: frs⟩ =
            .ok ⟨q, cp, st, applyHit (hitEntries es f r) fr :: frs⟩ := by
          simp [QueryExecutor.exit_map, is_match_mk, hfound]
        simp only [h3]
        simp [hitOf]
  | .structVariant c fs, q, cp, qs, st, fr, frs, hwf, hq, hqs, hk, hsafe, hH => by
    cases qs with
    | nil => exact absurd rfl hqs
    | cons e r =>
      have hfound := ns_found_of_app hq
      rw [serializeDoc]
      have h1 : QueryExecutor.enter_map ⟨q, cp, st, fr :: frs⟩ =
          ⟨q, cp, .StartMap :: st, fr :: frs⟩ := by
        simp [QueryExecutor.enter_map, is_match_mk, hfound]
      rw [h1]
      have hwf2 : wfFields fs = true ∧ nodupFields fs = true := by
        simpa [wfDoc] using hwf
      by_cases hec : e = QueryElement.Field c
      · subst hec
        cases r with
        | nil =>
          exact absurd (hH (.structD fs) (by simp [nodeAt])) (by simp [isLeafDoc])
        | cons e2 r2 =>
          have hq2 : q = (cp ++ [QueryElement.Field c]) ++ (e2 :: r2) := by
            rw [hq]; simp
          have hfound2 := ns_found_of_app hq2
          have h2 : QueryExecutor.must_enter_name ⟨q, cp, .StartMap :: st, fr :: frs⟩ c =
              .ok ⟨q, cp ++ [QueryElement.Field c], .StartMap :: st, fr :: frs⟩ := by
            simp [QueryExecutor.must_enter_name, is_match_mk, hfound2]
          cases e2 with
          | ArrayItem i =>
            have h3 := @fields_sweep fs (q) (cp ++ [QueryElement.Field c]) (.StartMap :: st) (fr :: frs) (by rw [hfound2]; trivial)
            have h4 : QueryExecutor.exit_map
                ⟨q, cp ++ [QueryElement.Field c], .StartMap :: st, fr :: frs⟩ =
                .ok ⟨q, cp ++ [QueryElement.Field c], st, fr :: frs⟩ := by
              simp [QueryExecutor.exit_map, is_match_mk, hfound2]
            simp only [bind, Except.bind, h2, h3, h4]
            simp [QueryExecutor.exit_name, List.dropLast_concat, hitOf, applyHit,
              pure, Except.pure]
          | Field f2 =>
            have h3 := @onPath_fields fs _ _ (f2) (r2) (st) (fr) (frs) hwf2.1 hwf2.2 hq2 (by simpa [nodeAt] using hH)
            have h4 : QueryExecutor.exit_map
                ⟨q, cp ++ [QueryElement.Field c], .StartMap :: st,
                  applyHit (hitFields fs f2 r2) fr :: frs⟩ =
                .ok ⟨q, cp ++ [QueryElement.Field c], st,
                  applyHit (hitFields fs f2 r2) fr :: frs⟩ := by
              simp [QueryExecutor.exit_map, is_match_mk, hfound2]
            simp only [bind, Except.bind, h2, h3, h4]
            simp [QueryExecutor.exit_name, List.dropLast_concat, hitOf, pure, Except.pure]
      · have hns2 : nextStepList q (cp ++ [QueryElement.Field c]) = .NotMatching :=
          ns_extend_found_ne _ hfound (fun h => hec h.symm)
        have h2 : QueryExecutor.must_enter_name ⟨q, cp, .StartMap :: st, fr :: frs⟩ c =
            .ok ⟨q, cp ++ [QueryElement.Field c], .StartMap :: st, fr :: frs⟩ := by
          simp [QueryExecutor.must_enter_name, is_match_mk, hns2]
        have h3 := @fields_sweep fs (q) (cp ++ [QueryElement.Field c]) (.StartMap :: st) (fr :: frs) (by rw [hns2]; trivial)
        have h4 : QueryExecutor.exit_map
            ⟨q, cp ++ [QueryElement.Field c], .StartMap :: st, fr :: frs⟩ =
            .ok ⟨q, cp ++ [QueryElement.Field c], st, fr :: frs⟩ := by
          simp [QueryExecutor.exit_map, is_match_mk, hns2]
        simp only [bind, Except.bind, h2, h3, h4]
        have hres : hitOf (isSeqHead st) (.structVariant c fs) (e :: r) = none := by
          cases e with
          | ArrayItem i => simp [hitOf]
          | Field f =>
            have : ¬(f = c) := fun h => hec (by rw [h])
            simp [hitOf, this]
        simp [QueryExecutor.exit_name, List.dropLast_concat, hres, applyHit,
          pure, Except.pure]
  | .tupleVariant c xs, q, cp, qs, st, fr, frs, hwf, hq, hqs, hk, hsafe, hH => by
    cases qs with
    | nil => exact absurd rfl hqs
    | cons e r =>
      have hfound := ns_found_of_app hq
      rw [serializeDoc]
      have h1 : QueryExecutor.enter_map ⟨q, cp, st, fr :: frs⟩ =
          ⟨q, cp, .StartMap :: st, fr :: frs⟩ := by
        simp [QueryExecutor.enter_map, is_match_mk, hfound]
      rw [h1]
      by_cases hec : e = QueryElement.Field c
      · subst hec
        cases r with
        | nil =>
          exact absurd (hH (.seqD xs) (by simp [nodeAt])) (by simp [isLeafDoc])
        | cons e2 r2 =>
          have hq2 : q = (cp ++ [QueryElement.Field c]) ++ (e2 :: r2) := by
            rw [hq]; simp
          have hfound2 := ns_found_of_app hq2
          have h2 : QueryExecutor.must_enter_name ⟨q, cp, .StartMap :: st, fr :: frs⟩ c =
              .ok ⟨q, cp ++ [QueryElement.Field c], .StartMap :: st, fr :: frs⟩ := by
            simp [QueryExecutor.must_enter_name, is_match_mk, hfound2]
          have h3 : QueryExecutor.enter_sequence
              ⟨q, cp ++ [QueryElement.Field c], .StartMap :: st, fr :: frs⟩
              (some xs.length) =
              .ok ⟨q, cp ++ [QueryElement.Field c],
                .Sequence 0 xs.length :: .StartMap :: st, fr :: frs⟩ := by
            simp [QueryExecutor.enter_sequence, is_match_mk, hfound2]
          cases e2 with
          | Field f2 =>
            have h4 := @items_sweep xs (q) (cp ++ [QueryElement.Field c]) 0 xs.length (.StartMap :: st) (fr :: frs)
              (by omega) (by rw [hfound2]; trivial)
            have h5 : QueryExecutor.exit_sequence
                ⟨q, cp ++ [QueryElement.Field c],
                  .Sequence (0 + xs.length) xs.length :: .StartMap :: st, fr :: frs⟩ =
                .ok ⟨q, cp ++ [QueryElement.Field c], .StartMap :: st, fr :: frs⟩ := by
              simp [QueryExecutor.exit_sequence, is_match_mk, hfound2]
            have h6 : QueryExecutor.exit_map
                ⟨q, cp ++ [QueryElement.Field c], .StartMap :: st, fr :: frs⟩ =
                .ok ⟨q, cp ++ [QueryElement.Field c], st, fr :: frs⟩ := by
              simp [QueryExecutor.exit_map, is_match_mk, hfound2]
            simp only [bind, Except.bind, h2, h3, h4, h5, h6]
            simp [QueryExecutor.exit_name, List.dropLast_concat, hitOf, applyHit,
              pure, Except.pure]
          | ArrayItem x =>
            have h4 := @onPath_items xs _ _ (x) (r2) (0) (xs.length) (.StartMap :: st) (fr) (frs)
              (by simpa [wfDoc] using hwf) hq2 (by omega)
              (by simpa [nodeAt] using hH)
            have h5 : QueryExecutor.exit_sequence
                ⟨q, cp ++ [QueryElement.Field c],
                  .Sequence (0 + xs.length) xs.length :: .StartMap :: st,
                  applyHit (if 0 ≤ x then hitItems xs (x - 0) r2 else none) fr :: frs⟩ =
                .ok ⟨q, cp ++ [QueryElement.Field c], .StartMap :: st,
                  applyHit (if 0 ≤ x then hitItems xs (x - 0) r2 else none) fr :: frs⟩ := by
              simp [QueryExecutor.exit_sequence, is_match_mk, hfound2]
            have h6 : QueryExecutor.exit_map
                ⟨q, cp ++ [QueryElement.Field c], .StartMap :: st,
                  applyHit (if 0 ≤ x then hitItems xs (x - 0) r2 else none) fr :: frs⟩ =
                .ok ⟨q, cp ++ [QueryElement.Field c], st,
                  applyHit (if 0 ≤ x then hitItems xs (x - 0) r2 else none) fr :: frs⟩ := by
              simp [QueryExecutor.exit_map, is_match_mk, hfound2]
            simp only [bind, Except.bind, h2, h3, h4, h5, h6]
            simp [QueryExecutor.exit_name, List.dropLast_concat, hitOf, pure, Except.pure]
      · have hns2 : nextStepList q (cp ++ [QueryElement.Field c]) = .NotMatching :=
          ns_extend_found_ne _ hfound (fun h => hec h.symm)
        have h2 : QueryExecutor.must_enter_name ⟨q, cp, .StartMap :: st, fr :: frs⟩ c =
            .ok ⟨q, cp ++ [QueryElement.Field c], .StartMap :: st, fr :: frs⟩ := by
          simp [QueryExecutor.must_enter_name, is_match_mk, hns2]
        have h3 : QueryExecutor.enter_sequence
            ⟨q, cp ++ [QueryElement.Field c], .StartMap :: st, fr :: frs⟩
            (some xs.length) =
            .ok ⟨q, cp ++ [QueryElement.Field c],
              .Sequence 0 xs.length :: .StartMap :: st, fr :: frs⟩ := by
          simp [QueryExecutor.enter_sequence, is_match_mk, hns2]
        have h4 := @items_sweep xs (q) (cp ++ [QueryElement.Field c]) 0 xs.length (.StartMap :: st) (fr :: frs)
          (by omega) (by rw [hns2]; trivial)
        have h5 : QueryExecutor.exit_sequence
            ⟨q, cp ++ [QueryElement.Field c],
              .Sequence (0 + xs.length) xs.length :: .StartMap :: st, fr :: frs⟩ =
            .ok ⟨q, cp ++ [QueryElement.Field c], .StartMap :: st, fr :: frs⟩ := by
          simp [QueryExecutor.exit_sequence, is_match_mk, hns2]
        have h6 : QueryExecutor.exit_map
            ⟨q, cp ++ [QueryElement.Field c], .StartMap :: st, fr :: frs⟩ =
            .ok ⟨q, cp ++ [QueryElement.Field c], st, fr :: frs⟩ := by
          simp [QueryExecutor.exit_map, is_match_mk, hns2]
        simp only [bind, Except.bind, h2, h3, h4, h5, h6]
        have hres : hitOf (isSeqHead st) (.tupleVariant c xs) (e :: r) = none := by
          cases e with
          | ArrayItem i => simp [hitOf]
          | Field f =>
            have : ¬(f = c) := fun h => hec (by rw [h])
            simp [hitOf, this]
        simp [QueryExecutor.exit_name, List.dropLast_concat, hres, applyHit,
          pure, Except.pure]

/-- onPath_doc through a struct-field loop. -/
theorem onPath_fields : ∀ (fs : FieldList) {q cp : List QueryElement} {f : String}
    {r : List QueryElement} {stt : List State} {fr : OutputStackFrame}
    {frs : List OutputStackFrame},
    wfFields fs = true → nodupFields fs = true →
    q = cp ++ (QueryElement.Field f :: r) →
    leafOnly (nodeAtFields fs f r) →
    serializeFields fs ⟨q, cp, .StartMap :: stt, fr :: frs⟩ =
      .ok ⟨q, cp, .StartMap :: stt, applyHit (hitFields fs f r) fr :: frs⟩
  | .fnil, q, cp, f, r, stt, fr, frs, _, _, _, _ => by
    simp [serializeFields, hitFields, applyHit]
  | .fcons k v tl, q, cp, f, r, stt, fr, frs, hwf, hnd, hq, hH => by
    have hfound := ns_found_of_app hq
    have hwfv : wfDoc v = true := by simp [wfFields] at hwf; exact hwf.1
    have hwft : wfFields tl = true := by simp [wfFields] at hwf; exact hwf.2
    have hndk : notFieldName k tl = true := by simp [nodupFields] at hnd; exact hnd.1
    have hndt : nodupFields tl = true := by simp [nodupFields] at hnd; exact hnd.2
    rw [serializeFields]
    by_cases hkf : k = f
    · subst hkf
      have he : QueryExecutor.enter_name ⟨q, cp, .StartMap :: stt, fr :: frs⟩ k =
          .ok (true, ⟨q, cp ++ [QueryElement.Field k], .StartMap :: stt, fr :: frs⟩) := by
        simp [QueryExecutor.enter_name, QueryExecutor.next_step, hfound]
      have hq2 : q = (cp ++ [QueryElement.Field k]) ++ r := by rw [hq]; simp
      cases r with
      | nil =>
        have hleaf : isLeafDoc v = true := by
          refine hH v ?_
          simp [nodeAtFields, nodeAt]
        have hns2 : nextStepList q (cp ++ [QueryElement.Field k]) = .IsMatch [] := by
          rw [hq2]
          simpa using ns_isMatch_self (cp ++ [QueryElement.Field k])
        have hlm := @leafMatched v hleaf _ _ _ State.StartMap stt fr frs
          hns2 (by simp [headNotKey])
        simp only [bind, Except.bind, he, hlm]
        have hsw2 := @fields_sweep tl (q) (cp) (.StartMap :: stt) (applyHit (some (mkLeafHit (isSeqHead (State.StartMap :: stt))
            (primValue v))) fr :: frs)
          (by rw [hfound]; exact notFieldName_spec tl hndk)
        simp only [QueryExecutor.exit_name, List.dropLast_concat]
        simp only [hsw2]
        simp [hitFields, applyHit, mkLeafHit, isSeqHead, hleaf]
      | cons e2 r2 =>
        have hop := @onPath_doc v _ _ _ (.StartMap :: stt) (fr) (frs)
          hwfv hq2 (by simp) (by simp [headNotKey]) (by simp)
          (by simpa [nodeAtFields] using hH)
        simp only [bind, Except.bind, he, hop]
        simp only [QueryExecutor.exit_name, List.dropLast_concat]
        have hsw2 := @fields_sweep tl (q) (cp) (.StartMap :: stt) (applyHit (hitOf (isSeqHead (State.StartMap :: stt)) v (e2 :: r2))
            fr :: frs)
          (by rw [hfound]; exact notFieldName_spec tl hndk)
        simp only [hsw2]
        simp [hitFields, isSeqHead]
    · have he : QueryExecutor.enter_name ⟨q, cp, .StartMap :: stt, fr :: frs⟩ k =
          .ok (false, ⟨q, cp, .StartMap :: stt, fr :: frs⟩) := by
        simp [QueryExecutor.enter_name, QueryExecutor.next_step, hfound, hkf]
      simp only [bind, Except.bind, he]
      rw [onPath_fields tl hwft hndt hq (by simpa [nodeAtFields, hkf] using hH)]
      simp [hitFields, hkf]

/-- onPath_doc through a map-entry loop. -/
theorem onPath_entries : ∀ (es : EntryList) {q cp : List QueryElement} {f : String}
    {r : List QueryElement} {st : List State} {fr : OutputStackFrame}
    {frs : List OutputStackFrame},
    wfEntries es = true → nodupEntries es = true →
    q = cp ++ (QueryElement.Field f :: r) →
    leafOnly (nodeAtEntries es f r) →
    serializeEntries es ⟨q, cp, st, fr :: frs⟩ =
      .ok ⟨q, cp, st, applyHit (hitEntries es f r) fr :: frs⟩
  | .enil, q, cp, f, r, st, fr, frs, _, _, _, _ => by
    simp [serializeEntries, hitEntries, applyHit]
  | .econs k v tl, q, cp, f, r, st, fr, frs, hwf, hnd, hq, hH => by
    have hfound := ns_found_of_app hq
    match k, hwf, hnd with
    | .strD k2, hwf, hnd =>
      have hwfv : wfDoc v = true := by simp [wfEntries] at hwf; exact hwf.1
      have hwft : wfEntries tl = true := by simp [wfEntries] at hwf; exact hwf.2
      have hndk : notEntryKey k2 tl = true := by simp [nodupEntries] at hnd; exact hnd.1
      have hndt : nodupEntries tl = true := by simp [nodupEntries] at hnd; exact hnd.2
      rw [serializeEntries]
      have h1 : QueryExecutor.enter_map_key ⟨q, cp, st, fr :: frs⟩ =
          ⟨q, cp, .MapKey :: st, fr :: frs⟩ := rfl
      have hq2 : q = (cp ++ [QueryElement.Field k2]) ++ r ∨ ¬(k2 = f) := by
        by_cases hkf : k2 = f
        · subst hkf; left; rw [hq]; simp
        · right; exact hkf
      by_cases hkf : k2 = f
      · subst hkf
        have hq2 : q = (cp ++ [QueryElement.Field k2]) ++ r := by rw [hq]; simp
        cases r with
        | nil =>
          have hleaf : isLeafDoc v = true := by
            refine hH v ?_
            simp [nodeAtEntries, nodeAt]
          have hns2 : nextStepList q (cp ++ [QueryElement.Field k2]) = .IsMatch [] := by
            rw [hq2]
            simpa using ns_isMatch_self (cp ++ [QueryElement.Field k2])
          have h2 : serializeDoc (.strD k2) ⟨q, cp, .MapKey :: st, fr :: frs⟩ =
              .ok ⟨q, cp ++ [QueryElement.Field k2], .MapKeyStr k2 :: .MapKey :: st,
                fr.push_key k2 :: frs⟩ := by
            rw [serializeDoc]
            rw [show QueryExecutor.serialize_str ⟨q, cp, .MapKey :: st, fr :: frs⟩ k2 =
              QueryExecutor.must_enter_name
                ⟨q, cp, .MapKeyStr k2 :: .MapKey :: st, fr :: frs⟩ k2 from rfl]
            simp [QueryExecutor.must_enter_name, is_match_mk, hns2]
          have h3 : QueryExecutor.exit_map_key
              ⟨q, cp ++ [QueryElement.Field k2], .MapKeyStr k2 :: .MapKey :: st,
                fr.push_key k2 :: frs⟩ =
              .ok ⟨q, cp ++ [QueryElement.Field k2], .MapKeyStr k2 :: .MapKey :: st,
                fr.push_key k2 :: frs⟩ := rfl
          have h4 : QueryExecutor.enter_map_value
              ⟨q, cp ++ [QueryElement.Field k2], .MapKeyStr k2 :: .MapKey :: st,
                fr.push_key k2 :: frs⟩ =
              .ok ⟨q, cp ++ [QueryElement.Field k2],
                .MapValue :: .MapKeyStr k2 :: .MapKey :: st, fr.push_key k2 :: frs⟩ := rfl
          have h5 := @leafMatched v hleaf _ _ _ (State.MapValue) (.MapKeyStr k2 :: .MapKey :: st) (fr.push_key k2) (frs)
            hns2 (by simp [headNotKey])
          have h6 : QueryExecutor.exit_map_value
              ⟨q, cp ++ [QueryElement.Field k2],
                .MapValue :: .MapKeyStr k2 :: .MapKey :: st,
                applyHit (some (mkLeafHit (isSeqHead
                  (State.MapValue :: State.MapKeyStr k2 :: State.MapKey :: st))
                  (primValue v))) (fr.push_key k2) :: frs⟩ =
              .ok ⟨q, cp, st,
                applyHit (some (mkLeafHit false (primValue v))) (fr.push_key k2) :: frs⟩ := by
            simp [QueryExecutor.exit_map_value, QueryExecutor.exit_name,
              List.dropLast_concat, isSeqHead]
          have hsw := @entries_offPath tl (q) (cp) (st) (applyHit (some (mkLeafHit false (primValue v)))
              (fr.push_key k2) :: frs)
            hwft (by rw [hfound]; exact notEntryKey_spec tl hndk)
          simp only [bind, Except.bind, h1, h2, h3, h4, h5, h6, hsw]
          simp [hitEntries, applyHit, mkLeafHit, hleaf]
        | cons e2 r2 =>
          have hfound2 := ns_found_of_app hq2
          have h2 : serializeDoc (.strD k2) ⟨q, cp, .MapKey :: st, fr :: frs⟩ =
              .ok ⟨q, cp ++ [QueryElement.Field k2], .MapKeyStr k2 :: .MapKey :: st,
                fr :: frs⟩ := by
            rw [serializeDoc]
            rw [show QueryExecutor.serialize_str ⟨q, cp, .MapKey :: st, fr :: frs⟩ k2 =
              QueryExecutor.must_enter_name
                ⟨q, cp, .MapKeyStr k2 :: .MapKey :: st, fr :: frs⟩ k2 from rfl]
            simp [QueryExecutor.must_enter_name, is_match_mk, hfound2]
          have h3 : QueryExecutor.exit_map_key
              ⟨q, cp ++ [QueryElement.Field k2], .MapKeyStr k2 :: .MapKey :: st,
                fr :: frs⟩ =
              .ok ⟨q, cp ++ [QueryElement.Field k2], .MapKeyStr k2 :: .MapKey :: st,
                fr :: frs⟩ := rfl
          have h4 : QueryExecutor.enter_map_value
              ⟨q, cp ++ [QueryElement.Field k2], .MapKeyStr k2 :: .MapKey :: st,
                fr :: frs⟩ =
              .ok ⟨q, cp ++ [QueryElement.Field k2],
                .MapValue :: .MapKeyStr k2 :: .MapKey :: st, fr :: frs⟩ := rfl
          have h5 := @onPath_doc v _ _ _ (.MapValue :: .MapKeyStr k2 :: .MapKey :: st) (fr) (frs) hwfv hq2 (by simp) (by simp [headNotKey]) (by simp)
            (by simpa [nodeAtEntries] using hH)
          have h6 : QueryExecutor.exit_map_value
              ⟨q, cp ++ [QueryElement.Field k2],
                .MapValue :: .MapKeyStr k2 :: .MapKey :: st,
                applyHit (hitOf (isSeqHead
                  (State.MapValue :: State.MapKeyStr k2 :: State.MapKey :: st))
                  v (e2 :: r2)) fr :: frs⟩ =
              .ok ⟨q, cp, st, applyHit (hitOf false v (e2 :: r2)) fr :: frs⟩ := by
            simp [QueryExecutor.exit_map_value, QueryExecutor.exit_name,
              List.dropLast_concat, isSeqHead]
          have hsw := @entries_offPath tl (q) (cp) (st) (applyHit (hitOf false v (e2 :: r2)) fr :: frs)
            hwft (by rw [hfound]; exact notEntryKey_spec tl hndk)
          simp only [bind, Except.bind, h1, h2, h3, h4, h5, h6, hsw]
          simp [hitEntries]
      · have hns2 : nextStepList q (cp ++ [QueryElement.Field k2]) = .NotMatching := by
          refine ns_extend_found_ne _ hfound ?_
          intro hmm
          cases hmm
          exact hkf rfl
        have h2 : serializeDoc (.strD k2) ⟨q, cp, .MapKey :: st, fr :: frs⟩ =
            .ok ⟨q, cp ++ [QueryElement.Field k2], .MapKeyStr k2 :: .MapKey :: st,
              fr :: frs⟩ := by
          rw [serializeDoc]
          rw [show QueryExecutor.serialize_str ⟨q, cp, .MapKey :: st, fr :: frs⟩ k2 =
            QueryExecutor.must_enter_name
              ⟨q, cp, .MapKeyStr k2 :: .MapKey :: st, fr :: frs⟩ k2 from rfl]
          simp [QueryExecutor.must_enter_name, is_match_mk, hns2]
        have h3 : QueryExecutor.exit_map_key
            ⟨q, cp ++ [QueryElement.Field k2], .MapKeyStr k2 :: .MapKey :: st,
              fr :: frs⟩ =
            .ok ⟨q, cp ++ [QueryElement.Field k2], .MapKeyStr k2 :: .MapKey :: st,
              fr :: frs⟩ := rfl
        have h4 : QueryExecutor.enter_map_value
            ⟨q, cp ++ [QueryElement.Field k2], .MapKeyStr k2 :: .MapKey :: st,
              fr :: frs⟩ =
            .ok ⟨q, cp ++ [QueryElement.Field k2],
              .MapValue :: .MapKeyStr k2 :: .MapKey :: st, fr :: frs⟩ := rfl
        have h5 := @offPath_doc v (q) (cp ++ [QueryElement.Field k2]) (.MapValue :: .MapKeyStr k2 :: .MapKey :: st) (fr :: frs)
          hwfv hns2 (by simp) (by simp [headNotKey])
        have h6 : QueryExecutor.exit_map_value
            ⟨q, cp ++ [QueryElement.Field k2],
              .MapValue :: .MapKeyStr k2 :: .MapKey :: st, fr :: frs⟩ =
            .ok ⟨q, cp, st, fr :: frs⟩ := by
          simp [QueryExecutor.exit_map_value, QueryExecutor.exit_name,
            List.dropLast_concat]
        simp only [bind, Except.bind, h1, h2, h3, h4, h5, h6]
        rw [onPath_entries tl hwft hndt hq (by simpa [nodeAtEntries, hkf] using hH)]
        simp [hitEntries, hkf]

/-- onPath_doc through a sequence-element loop, with the element counter at
idx and the expected index x. -/
theorem onPath_items : ∀ (xs : DocList) {q cp : List QueryElement} {x : Nat}
    {r : List QueryElement} {idx len : Nat} {stt : List State}
    {fr : OutputStackFrame} {frs : List OutputStackFrame},
    wfItems xs = true →
    q = cp ++ (QueryElement.ArrayItem x :: r) →
    len = idx + xs.length →
    leafOnly (if idx ≤ x then nodeAtItems xs (x - idx) r else none) →
    serializeItems xs ⟨q, cp, .Sequence idx len :: stt, fr :: frs⟩ =
      .ok ⟨q, cp, .Sequence (idx + xs.length) len :: stt,
        applyHit (if idx ≤ x then hitItems xs (x - idx) r else none) fr :: frs⟩
  | .dnil, q, cp, x, r, idx, len, stt, fr, frs, _, _, _, _ => by
    have hnone : (if idx ≤ x then hitItems .dnil (x - idx) r else none) = none := by
      split <;> simp [hitItems]
    rw [serializeItems, hnone]
    simp [applyHit, DocList.length]
  | .dcons hd tl, q, cp, x, r, idx, len, stt, fr, frs, hwf, hq, hlen, hH => by
    have hfound := ns_found_of_app hq
    have hwfh : wfDoc hd = true := by simp [wfItems] at hwf; exact hwf.1
    have hwft : wfItems tl = true := by simp [wfItems] at hwf; exact hwf.2
    have hlen2 : len = idx + (tl.length + 1) := by simpa [DocList.length] using hlen
    have hidx : idx < len := by omega
    rw [serializeItems]
    dsimp only
    rw [if_pos hidx]
    by_cases hix : idx = x
    · subst hix
      have he : QueryExecutor.enter_index
          ⟨q, cp, .Sequence (idx + 1) len :: stt, fr :: frs⟩ idx =
          (true, ⟨q, cp ++ [QueryElement.ArrayItem idx],
            .Sequence (idx + 1) len :: stt, fr :: frs⟩) := by
        simp [QueryExecutor.enter_index, QueryExecutor.next_step, hfound]
      rw [he]
      have hq2 : q = (cp ++ [QueryElement.ArrayItem idx]) ++ r := by rw [hq]; simp
      cases r with
      | nil =>
        have hleaf : isLeafDoc hd = true := by
          refine hH hd ?_
          simp [nodeAtItems, nodeAt]
        have hns2 : nextStepList q (cp ++ [QueryElement.ArrayItem idx]) = .IsMatch [] := by
          rw [hq2]
          simpa using ns_isMatch_self (cp ++ [QueryElement.ArrayItem idx])
        have hlm := @leafMatched hd hleaf _ _ _ (State.Sequence (idx + 1) len) (stt) (fr) (frs) hns2 (by simp [headNotKey])
        simp only [bind, Except.bind, hlm]
        simp only [QueryExecutor.exit_index, List.dropLast_concat]
        have hsw := @items_sweep tl (q) (cp) (idx + 1) len (stt) (applyHit (some (mkLeafHit (isSeqHead
            (State.Sequence (idx + 1) len :: stt)) (primValue hd))) fr :: frs)
          (by omega) (by rw [hfound]; exact fun j hj hjx => by omega)
        simp only [hsw]
        have harith : idx + 1 + DocList.length tl = idx + DocList.length (.dcons hd tl) := by
          simp [DocList.length]; omega
        rw [harith]
        simp [hitItems, applyHit, mkLeafHit, isSeqHead, hleaf, Nat.sub_self]
      | cons e2 r2 =>
        have hop := @onPath_doc hd _ _ _ (.Sequence (idx + 1) len :: stt) (fr) (frs) hwfh hq2 (by simp) (by simp [headNotKey]) (by simp)
          (by
            have := hH
            simp only [Nat.le_refl, if_pos, Nat.sub_self] at this
            simpa [nodeAtItems] using this)
        simp only [bind, Except.bind, hop]
        simp only [QueryExecutor.exit_index, List.dropLast_concat]
        have hsw := @items_sweep tl (q) (cp) (idx + 1) len (stt) (applyHit (hitOf (isSeqHead (State.Sequence (idx + 1) len :: stt))
            hd (e2 :: r2)) fr :: frs)
          (by omega) (by rw [hfound]; exact fun j hj hjx => by omega)
        simp only [hsw]
        have harith : idx + 1 + DocList.length tl = idx + DocList.length (.dcons hd tl) := by
          simp [DocList.length]; omega
        rw [harith]
        simp [hitItems, isSeqHead, Nat.sub_self]
    · have he : QueryExecutor.enter_index
          ⟨q, cp, .Sequence (idx + 1) len :: stt, fr :: frs⟩ idx =
          (false, ⟨q, cp, .Sequence (idx + 1) len :: stt, fr :: frs⟩) := by
        simp [QueryExecutor.enter_index, QueryExecutor.next_step, hfound, hix]
      rw [he]
      dsimp only
      by_cases hle : idx ≤ x
      · have hlt : idx < x := Nat.lt_of_le_of_ne hle hix
        have hre := @onPath_items tl _ _ (x) (r) (idx + 1) (len) (stt) (fr) (frs) hwft hq (by omega)
          (by
            have hx : x - idx = (x - (idx + 1)) + 1 := by omega
            have := hH
            rw [if_pos hle, hx] at this
            rw [if_pos (by omega : idx + 1 ≤ x)]
            simpa [nodeAtItems] using this)
        rw [hre]
        have harith : idx + 1 + DocList.length tl = idx + DocList.length (.dcons hd tl) := by
          simp [DocList.length]; omega
        rw [harith]
        have hx : x - idx = (x - (idx + 1)) + 1 := by omega
        rw [if_pos hle, hx, if_pos (by omega : idx + 1 ≤ x)]
        simp [hitItems]
      · have hre := @onPath_items tl _ _ (x) (r) (idx + 1) (len) (stt) (fr) (frs) hwft hq (by omega)
          (by rw [if_neg (by omega : ¬(idx + 1 ≤ x))]; intro n hn; cases hn)
        rw [hre]
        have harith : idx + 1 + DocList.length tl = idx + DocList.length (.dcons hd tl) := by
          simp [DocList.length]; omega
        rw [harith]
        rw [if_neg (by omega : ¬(idx + 1 ≤ x)), if_neg hle]
end

mutual
/-- hitOf agrees with nodeAt: no hit where no node, and the hit of a leaf
node carries exactly the node's primitive value. -/
theorem hitOf_spec : ∀ (d : Doc) {qs : List QueryElement} (ai : Bool), qs ≠ [] →
    leafOnly (nodeAt d qs) →
    (match nodeAt d qs with
     | none => hitOf ai d qs = none
     | some n => ∃ h, hitOf ai d qs = some h ∧
         (h = .item (primValue n) ∨ h = .val (primValue n) ∨
          ∃ k, h = .keyed k (primValue n)))
  | .boolD b, qs, ai, hqs, hH => by
    cases qs with
    | nil => exact absurd rfl hqs
    | cons e r => simp [nodeAt, hitOf]
  | .intD n, qs, ai, hqs, hH => by
    cases qs with
    | nil => exact absurd rfl hqs
    | cons e r => simp [nodeAt, hitOf]
  | .strD v, qs, ai, hqs, hH => by
    cases qs with
    | nil => exact absurd rfl hqs
    | cons e r => simp [nodeAt, hitOf]
  | .unitD, qs, ai, hqs, hH => by
    cases qs with
    | nil => exact absurd rfl hqs
    | cons e r => simp [nodeAt, hitOf]
  | .unitVariant c, qs, ai, hqs, hH => by
    cases qs with
    | nil => exact absurd rfl hqs
    | cons e r => simp [nodeAt, hitOf]
  | .seqNoLen xs, qs, ai, hqs, hH => by
    cases qs with
    | nil => exact absurd rfl hqs
    | cons e r => simp [nodeAt, hitOf]
  | .newtypeStruct d, qs, ai, hqs, hH => by
    cases qs with
    | nil => exact absurd rfl hqs
    | cons e r =>
      have := @hitOf_spec d (e :: r) ai (by simp) (by simpa [nodeAt] using hH)
      simpa [nodeAt, hitOf] using this
  | .newtypeVariant c d, qs, ai, hqs, hH => by
    cases qs with
    | nil => exact absurd rfl hqs
    | cons e r =>
      cases e with
      | ArrayItem i => simp [nodeAt, hitOf]
      | Field f =>
        by_cases hfc : f = c
        · subst hfc
          cases r with
          | nil =>
            have hn : nodeAt (Doc.newtypeVariant f d) [QueryElement.Field f] = some d := by
              simp [nodeAt]
            have hleaf : isLeafDoc d = true := hH d hn
            rw [hn]
            exact ⟨mkLeafHit ai (primValue d), by simp [hitOf, hleaf],
              by cases ai <;> simp [mkLeafHit]⟩
          | cons e2 r2 =>
            have := @hitOf_spec d (e2 :: r2) ai (by simp)
              (by simpa [nodeAt] using hH)
            simpa [nodeAt, hitOf] using this
        · simp [nodeAt, hitOf, hfc]
  | .seqD xs, qs, ai, hqs, hH => by
    cases qs with
    | nil => exact absurd rfl hqs
    | cons e r =>
      cases e with
      | Field f => simp [nodeAt, hitOf]
      | ArrayItem x =>
        have := hitItems_spec xs x r (by simpa [nodeAt] using hH)
        simpa [nodeAt, hitOf] using this
  | .structD fs, qs, ai, hqs, hH => by
    cases qs with
    | nil => exact absurd rfl hqs
    | cons e r =>
      cases e with
      | ArrayItem i => simp [nodeAt, hitOf]
      | Field f =>
        have := hitFields_spec fs f r (by simpa [nodeAt] using hH)
        simpa [nodeAt, hitOf] using this
  | .mapD es, qs, ai, hqs, hH => by
    cases qs with
    | nil => exact absurd rfl hqs
    | cons e r =>
      cases e with
      | ArrayItem i => simp [nodeAt, hitOf]
      | Field f =>
        have := hitEntries_spec es f r (by simpa [nodeAt] using hH)
        simpa [nodeAt, hitOf] using this
  | .structVariant c fs, qs, ai, hqs, hH => by
    cases qs with
    | nil => exact absurd rfl hqs
    | cons e r =>
      cases e with
      | ArrayItem i => simp [nodeAt, hitOf]
      | Field f =>
        by_cases hfc : f = c
        · subst hfc
          cases r with
          | nil =>
            have hleaf := hH (.structD fs) (by simp [nodeAt])
            simp [isLeafDoc] at hleaf
          | cons e2 r2 =>
            cases e2 with
            | ArrayItem i => simp [nodeAt, hitOf]
            | Field f2 =>
              have := hitFields_spec fs f2 r2 (by simpa [nodeAt] using hH)
              simpa [nodeAt, hitOf] using this
        · simp [nodeAt, hitOf, hfc]
  | .tupleVariant c xs, qs, ai, hqs, hH => by
    cases qs with
    | nil => exact absurd rfl hqs
    | cons e r =>
      cases e with
      | ArrayItem i => simp [nodeAt, hitOf]
      | Field f =>
        by_cases hfc : f = c
        · subst hfc
          cases r with
          | nil =>
            have hleaf := hH (.seqD xs) (by simp [nodeAt])
            simp [isLeafDoc] at hleaf
          | cons e2 r2 =>
            cases e2 with
            | Field f2 => simp [nodeAt, hitOf]
            | ArrayItem x =>
              have := hitItems_spec xs x r2 (by simpa [nodeAt] using hH)
              simpa [nodeAt, hitOf] using this
        · simp [nodeAt, hitOf, hfc]

/-- hitFields agrees with nodeAtFields. -/
theorem hitFields_spec : ∀ (fs : FieldList) (f : String) (r : List QueryElement),
    leafOnly (nodeAtFields fs f r) →
    (match nodeAtFields fs f r with
     | none => hitFields fs f r = none
     | some n => ∃ h, hitFields fs f r = some h ∧
         (h = .item (primValue n) ∨ h = .val (primValue n) ∨
          ∃ k, h = .keyed k (primValue n)))
  | .fnil, f, r, hH => by simp [nodeAtFields, hitFields]
  | .fcons k v tl, f, r, hH => by
    by_cases hkf : k = f
    · subst hkf
      cases r with
      | nil =>
        have hn : nodeAtFields (.fcons k v tl) k [] = some v := by
          simp [nodeAtFields, nodeAt]
        have hleaf : isLeafDoc v = true := hH v hn
        rw [hn]
        exact ⟨.val (primValue v), by simp [hitFields, hleaf], by simp⟩
      | cons e2 r2 =>
        have := @hitOf_spec v (e2 :: r2) false (by simp)
          (by simpa [nodeAtFields] using hH)
        simpa [nodeAtFields, hitFields] using this
    · have := hitFields_spec tl f r (by simpa [nodeAtFields, hkf] using hH)
      simpa [nodeAtFields, hitFields, hkf] using this

/-- hitEntries agrees with nodeAtEntries. -/
theorem hitEntries_spec : ∀ (es : EntryList) (f : String) (r : List QueryElement),
    leafOnly (nodeAtEntries es f r) →
    (match nodeAtEntries es f r with
     | none => hitEntries es f r = none
     | some n => ∃ h, hitEntries es f r = some h ∧
         (h = .item (primValue n) ∨ h = .val (primValue n) ∨
          ∃ k, h = .keyed k (primValue n)))
  | .enil, f, r, hH => by simp [nodeAtEntries, hitEntries]
  | .econs k v tl, f, r, hH => by
    cases k
    case strD k2 =>
      by_cases hkf : k2 = f
      · subst hkf
        cases r with
        | nil =>
          have hn : nodeAtEntries (.econs (.strD k2) v tl) k2 [] = some v := by
            simp [nodeAtEntries, nodeAt]
          have hleaf : isLeafDoc v = true := hH v hn
          rw [hn]
          exact ⟨.keyed k2 (primValue v), by simp [hitEntries, hleaf],
            by right; right; exact ⟨k2, rfl⟩⟩
        | cons e2 r2 =>
          have := @hitOf_spec v (e2 :: r2) false (by simp)
            (by simpa [nodeAtEntries] using hH)
          simpa [nodeAtEntries, hitEntries] using this
      · have := hitEntries_spec tl f r (by simpa [nodeAtEntries, hkf] using hH)
        simpa [nodeAtEntries, hitEntries, hkf] using this
    all_goals
      have := hitEntries_spec tl f r (by simpa [nodeAtEntries] using hH)
      simpa [nodeAtEntries, hitEntries] using this

/-- hitItems agrees with nodeAtItems. -/
theorem hitItems_spec : ∀ (xs : DocList) (i : Nat) (r : List QueryElement),
    leafOnly (nodeAtItems xs i r) →
    (match nodeAtItems xs i r with
     | none => hitItems xs i r = none
     | some n => ∃ h, hitItems xs i r = some h ∧
         (h = .item (primValue n) ∨ h = .val (primValue n) ∨
          ∃ k, h = .keyed k (primValue n)))
  | .dnil, i, r, hH => by simp [nodeAtItems, hitItems]
  | .dcons hd tl, i, r, hH => by
    cases i with
    | zero =>
      cases r with
      | nil =>
        have hn : nodeAtItems (.dcons hd tl) 0 [] = some hd := by
          simp [nodeAtItems, nodeAt]
        have hleaf : isLeafDoc hd = true := hH hd hn
        rw [hn]
        exact ⟨.item (primValue hd), by simp [hitItems, hleaf], by simp⟩
      | cons e2 r2 =>
        have := @hitOf_spec hd (e2 :: r2) true (by simp)
          (by simpa [nodeAtItems] using hH)
        simpa [nodeAtItems, hitItems] using this
    | succ i2 =>
      have := hitItems_spec tl i2 r (by simpa [nodeAtItems] using hH)
      simpa [nodeAtItems, hitItems] using this
end

/-- C1 (amended).  For every well-formed document d (every sequence reports
its length, every map key is a string, field names and keys are pairwise
distinct) whose root is safe (a container after transparent wrappers and
variant case names, or a bare non-string primitive), and every non-empty
query q all of whose addressed nodes are leaves: execute returns exactly
Ok(Some(value at q)) when the leaf exists, and Ok(None) — not an error —
when no node lies at q (including a sequence index past the end).  The
unamended claim is false: on a bare string document execute returns
InternalError for every query (see the counterexample). -/
theorem execute_returns_leaf_or_none (d : Doc) (q : List QueryElement)
    (hwf : wfDoc d = true) (hroot : rootSafe d = true) (hq : q ≠ [])
    (hleaf : leafOnly (nodeAt d q)) :
    execQ q d = .ok ((nodeAt d q).map primValue) := by
  have hser := @onPath_doc d (q) ([]) (q) ([]) (OutputStackFrame.default) ([]) hwf (by simp) hq
    (by trivial) (fun _ => hroot) hleaf
  unfold execQ executeQuery
  simp only [bind, Except.bind, QueryExecutor.new, hser]
  have hspec := @hitOf_spec d (q) false hq hleaf
  cases hn : nodeAt d q with
  | none =>
    rw [hn] at hspec
    simp only [isSeqHead] at hser ⊢
    simp [hspec, QueryExecutor.get_result, applyHit, OutputStackFrame.default]
  | some n =>
    rw [hn] at hspec
    obtain ⟨h, hh, hshape⟩ := hspec
    simp only [isSeqHead, hh]
    rcases hshape with h1 | h1 | ⟨k, h1⟩ <;> subst h1 <;>
      simp [QueryExecutor.get_result, applyHit, OutputStackFrame.default,
        OutputStackFrame.push_item, OutputStackFrame.push_value, OutputStackFrame.push_key]

/-- C1 (counterexample to the unamended claim).  The six-element document
of the spec's sequence-indexing example works as claimed; but a bare string
document is a perfectly good serde document in which the path [0] is not
present, and execute returns an InternalError rather than Ok(None). -/
theorem execute_string_root_errors :
    execQ [QueryElement.ArrayItem 0] (.strD "hello") =
      .error (.execErr (.InternalError "&str value with no state!")) := rfl

/-- C1 (witness): the amended theorem applied to the crate's Dog document,
on the present leaf path .name and on the absent path .nothere. -/
theorem execute_returns_leaf_or_none_witness :
    execQ [QueryElement.Field "name"] exampleDog = .ok (some (.str "Buddy")) ∧
    execQ [QueryElement.Field "nothere"] exampleDog = .ok none := by
  constructor
  · rw [execute_returns_leaf_or_none exampleDog [QueryElement.Field "name"] rfl rfl
      (by simp) (by intro n hn; rw [show nodeAt exampleDog [QueryElement.Field "name"] =
        some (.strD "Buddy") from rfl] at hn; cases hn; rfl)]
    rfl
  · rw [execute_returns_leaf_or_none exampleDog [QueryElement.Field "nothere"] rfl rfl
      (by simp) (by intro n hn; rw [show nodeAt exampleDog [QueryElement.Field "nothere"] =
        none from rfl] at hn; cases hn)]
    rfl

/-- C2 (code behavior at the failing input).  QueryExecutor::new performs
no emptiness check — it succeeds on an empty query — and execute with an
empty element list returns Ok(Some(whole document)) instead of
Err(EmptyQuery): on the struct with one field a = 1 it returns the whole
object. -/
theorem empty_query_not_rejected :
    QueryExecutor.new ⟨[]⟩ = ⟨[], [], [], [OutputStackFrame.default]⟩ ∧
    execQ [] (.structD (.fcons "a" (.intD 1) .fnil)) =
      .ok (some (.obj [("a", .num 1)])) :=
  ⟨rfl, rfl⟩

/-- C3 (counterexample).  A map that offers the key a twice records two
values at the root output frame (shown by the intermediate executor state),
yet execute returns Ok(Some(1)) — the first recorded value — and no
TwoMatchingPaths error; indeed the error enum QueryExecErr has no such
variant at all. -/
theorem two_root_values_no_error :
    serializeDoc exampleDupMap (QueryExecutor.new ⟨[QueryElement.Field "a"]⟩) =
      .ok ⟨[QueryElement.Field "a"], [], [],
        [⟨.Map, [], ["a", "a"], [.num 1, .num 2]⟩]⟩ ∧
    execQ [QueryElement.Field "a"] exampleDupMap = .ok (some (.num 1)) :=
  ⟨rfl, rfl⟩

/-- C3 (amended).  get_result behaves as: zero values recorded at the root
frame give None, exactly one gives that value, and more than one gives the
FIRST recorded value with no error (the code has no TwoMatchingPaths
variant): shown on a zero-match query, a one-match query, and the
duplicate-key map that records two root values. -/
theorem result_extraction_takes_first :
    execQ [QueryElement.Field "zzz"] exampleDog = .ok none ∧
    execQ [QueryElement.Field "age"] exampleDog = .ok (some (.num 14)) ∧
    (serializeDoc exampleDupMap (QueryExecutor.new ⟨[QueryElement.Field "a"]⟩) =
        .ok ⟨[QueryElement.Field "a"], [], [],
          [⟨.Map, [], ["a", "a"], [.num 1, .num 2]⟩]⟩ ∧
      execQ [QueryElement.Field "a"] exampleDupMap = .ok (some (.num 1)) ∧
      QueryExecutor.get_result
        ⟨[QueryElement.Field "a"], [], [],
          [⟨.Map, [], ["a", "a"], [.num 1, .num 2]⟩]⟩ = .ok (some (.num 1))) :=
  ⟨rfl, rfl, rfl, rfl, rfl⟩

/-- C7.  The parse errors are exact and carry the detecting position:
".a.b." fails with MissingField (which carries no position in the code),
"[0][]" with MissingNumber at position 4 (the inside of the empty
brackets), and "[" with MissingNumber at the end-of-input position 1; each
is the whole parse's result, so no partial element list escapes. -/
theorem parse_errors_are_positional :
    parse_query ".a.b.".toList = .error .MissingField ∧
    parse_query "[0][]".toList = .error (.MissingNumber 4) ∧
    parse_query "[".toList = .error (.MissingNumber 1) :=
  ⟨rfl, rfl, rfl⟩

/-- C10.  A document that describes a sequence without a length
(serialize_seq(None)) makes the executor panic through
expect("All sequences have lengths?"): serializing it from any executor
state panics before any element is visited, and execute on such a document
ends in the panic outcome — never in a normal return and never in a
QueryExecErr value. -/
theorem unknown_length_sequence_panics :
    (∀ (xs : DocList) (s : QueryExecutor),
      serializeDoc (.seqNoLen xs) s = .error .panicked) ∧
    (∀ (xs : DocList) (q : List QueryElement),
      execQ q (.seqNoLen xs) = .error .panicked) := by
  have hser : ∀ (xs : DocList) (s : QueryExecutor),
      serializeDoc (.seqNoLen xs) s = .error .panicked := by
    intro xs s
    rw [serializeDoc]
    cases hm : s.is_match <;>
      simp [QueryExecutor.enter_sequence, hm, bind, Except.bind]
  refine ⟨hser, fun xs q => ?_⟩
  unfold execQ executeQuery
  simp [bind, Except.bind, hser]

/-- C5.  During a sequence traversal whose match state is pending with
expected element ArrayItem(x), the element whose counter is i is descended
into exactly when i = x: when i differs from x the element is skipped
untraversed (for every document d!) and only the counter advances; when
i = x the traversal enters the index (pushing it on the current path),
serializes the element, and pops the index before the remaining
elements. -/
theorem sequence_index_gating (d : Doc) (tl : DocList)
    (q cp : List QueryElement) (x i len : Nat) (stt : List State)
    (out : List OutputStackFrame)
    (hns : nextStepList q cp = .Found (.ArrayItem x)) (hlen : i < len) :
    (i ≠ x → serializeItems (.dcons d tl) ⟨q, cp, .Sequence i len :: stt, out⟩ =
      serializeItems tl ⟨q, cp, .Sequence (i + 1) len :: stt, out⟩) ∧
    (i = x → serializeItems (.dcons d tl) ⟨q, cp, .Sequence i len :: stt, out⟩ =
      (serializeDoc d ⟨q, cp ++ [QueryElement.ArrayItem i],
          .Sequence (i + 1) len :: stt, out⟩).bind
        (fun s3 => serializeItems tl s3.exit_index)) := by
  constructor
  · intro hix
    rw [serializeItems]
    dsimp only
    rw [if_pos hlen]
    have he : QueryExecutor.enter_index
        ⟨q, cp, .Sequence (i + 1) len :: stt, out⟩ i =
        (false, ⟨q, cp, .Sequence (i + 1) len :: stt, out⟩) := by
      simp [QueryExecutor.enter_index, QueryExecutor.next_step, hns, hix]
    rw [he]
  · intro hix
    subst hix
    rw [serializeItems]
    dsimp only
    rw [if_pos hlen]
    have he : QueryExecutor.enter_index
        ⟨q, cp, .Sequence (i + 1) len :: stt, out⟩ i =
        (true, ⟨q, cp ++ [QueryElement.ArrayItem i],
          .Sequence (i + 1) len :: stt, out⟩) := by
      simp [QueryExecutor.enter_index, QueryExecutor.next_step, hns]
    rw [he]
    dsimp only
    cases serializeDoc d ⟨q, cp ++ [QueryElement.ArrayItem i],
        .Sequence (i + 1) len :: stt, out⟩ <;>
      simp [bind, Except.bind]

/-- C5 (witness): with the query [1] at counter 0 of a two-element
sequence, the element is skipped and only the counter advances; the
theorem instantiated at the document 5, expected index 1, counter 0. -/
theorem sequence_index_gating_witness :
    serializeItems (.dcons (.intD 5) .dnil)
      ⟨[QueryElement.ArrayItem 1], [], [.Sequence 0 2], [OutputStackFrame.default]⟩ =
    serializeItems .dnil
      ⟨[QueryElement.ArrayItem 1], [], [.Sequence 1 2], [OutputStackFrame.default]⟩ :=
  (sequence_index_gating (.intD 5) .dnil [QueryElement.ArrayItem 1] [] 1 0 2
    [] [OutputStackFrame.default] rfl (by decide)).1 (by decide)

/-- C6.  A tagged variant's case name is one Field path element consumed
before the payload: when the next expected element is the case name, the
newtype-variant serialization equals pushing the case name onto the
current path, serializing the payload, then popping it (exit_name); a unit
variant serializes exactly as its case name's bare string.  On the Pet
vector: [0] returns the string Bird (no-payload variant as terminal
string), [1].Dog.name reaches into the Dog payload, [2].Cat.lives into the
Cat struct-variant payload. -/
theorem variant_case_name_dispatch :
    (∀ (c : String) (d : Doc) (q cp : List QueryElement) (st : List State)
       (out : List OutputStackFrame),
      nextStepList q cp = .Found (.Field c) →
      serializeDoc (.newtypeVariant c d) ⟨q, cp, st, out⟩ =
        (serializeDoc d ⟨q, cp ++ [QueryElement.Field c], st, out⟩).map
          QueryExecutor.exit_name) ∧
    (∀ (c : String) (s : QueryExecutor),
      serializeDoc (.unitVariant c) s = serializeDoc (.strD c) s) ∧
    execQ [QueryElement.ArrayItem 0] examplePets = .ok (some (.str "Bird")) ∧
    execQ [QueryElement.ArrayItem 1, QueryElement.Field "Dog", QueryElement.Field "name"]
      examplePets = .ok (some (.str "Buddy")) ∧
    execQ [QueryElement.ArrayItem 2, QueryElement.Field "Cat", QueryElement.Field "lives"]
      examplePets = .ok (some (.num 9)) := by
  refine ⟨?_, fun c s => rfl, rfl, rfl, rfl⟩
  intro c d q cp st out hns
  rw [serializeDoc]
  have he : QueryExecutor.enter_name ⟨q, cp, st, out⟩ c =
      .ok (true, ⟨q, cp ++ [QueryElement.Field c], st, out⟩) := by
    simp [QueryExecutor.enter_name, QueryExecutor.next_step, hns]
  simp only [bind, Except.bind, he]
  cases serializeDoc d ⟨q, cp ++ [QueryElement.Field c], st, out⟩ <;>
    simp [Except.map, pure, Except.pure]

/-- C6 (witness): the first conjunct applied at the case name Dog with an
integer payload, query .Dog, from the fresh state. -/
theorem variant_case_name_dispatch_witness :
    serializeDoc (.newtypeVariant "Dog" (.intD 5))
      ⟨[QueryElement.Field "Dog"], [], [.StartMap], [OutputStackFrame.default]⟩ =
      (serializeDoc (.intD 5)
        ⟨[QueryElement.Field "Dog"], [QueryElement.Field "Dog"], [.StartMap],
          [OutputStackFrame.default]⟩).map QueryExecutor.exit_name :=
  (variant_case_name_dispatch).1 "Dog" (.intD 5) [QueryElement.Field "Dog"] []
    [.StartMap] [OutputStackFrame.default] rfl

/-- C8 (counterexample).  A non-string (integer) map key whose container
IS matched by the query does not fail with InternalError: possible_result
panics first.  On the struct whose field m is a map with integer key 3,
query .m ends in the panic outcome, not in Err(InternalError). -/
theorem nonstring_key_matched_panics :
    execQ [QueryElement.Field "m"] exampleBadKeyMatched = .error .panicked ∧
    execQ [QueryElement.Field "b"] exampleBadKeyUnmatched =
      .error (.execErr (.InternalError "Map key not a simple String!")) :=
  ⟨rfl, rfl⟩

/-- Any map key whose serialization is one possible_result call (the
primitive non-string keys: integers, booleans, unit) makes the whole entry
loop fail: a panic when the key's location is matched (possible_result
sees the MapKey state on top), the fatal InternalError "Map key not a
simple String!" from exit_map_key otherwise. -/
theorem primitive_key_dichotomy (d : Doc) (j : JSON)
    (hd : ∀ s : QueryExecutor, serializeDoc d s = s.possible_result j)
    (v : Doc) (tl : EntryList) (q cp : List QueryElement)
    (st : List State) (out : List OutputStackFrame) :
    serializeEntries (.econs d v tl) ⟨q, cp, st, out⟩ =
      (match nextStepList q cp with
       | .IsMatch _ => .error .panicked
       | _ => .error (.execErr (.InternalError "Map key not a simple String!"))) := by
  rw [serializeEntries]
  have h1 : QueryExecutor.enter_map_key ⟨q, cp, st, out⟩ =
      ⟨q, cp, .MapKey :: st, out⟩ := rfl
  cases hns : nextStepList q cp with
  | IsMatch rel =>
    have h2 : serializeDoc d ⟨q, cp, .MapKey :: st, out⟩ =
        .error .panicked := by
      rw [hd]
      cases out with
      | nil => simp [QueryExecutor.possible_result, is_match_mk, hns]
      | cons fr frs => simp [QueryExecutor.possible_result, is_match_mk, hns]
    simp [bind, Except.bind, h1, h2]
  | NotMatching =>
    have h2 : serializeDoc d ⟨q, cp, .MapKey :: st, out⟩ =
        .ok ⟨q, cp, .MapKey :: st, out⟩ :=
      by rw [hd]; exact possible_result_unmatched _ (by simp [hns])
    simp [bind, Except.bind, h1, h2, QueryExecutor.exit_map_key]
  | Found e =>
    have h2 : serializeDoc d ⟨q, cp, .MapKey :: st, out⟩ =
        .ok ⟨q, cp, .MapKey :: st, out⟩ :=
      by rw [hd]; exact possible_result_unmatched _ (by simp [hns])
    simp [bind, Except.bind, h1, h2, QueryExecutor.exit_map_key]

/-- C8 (amended).  Every non-string map key makes the traversal fail, but
the failure mode depends on the match state AND the key's shape, contrary
to the claim's "regardless": a primitive non-string key (integer, boolean,
unit) panics in possible_result when its location is matched and otherwise
fails with the fatal InternalError "Map key not a simple String!" — for
every entry list, query, path, state and output stack; whereas a
container-valued key (a sequence or a struct used as the key) serializes
without incident and then exit_map_key returns that same InternalError
even when the key's location IS matched — no panic, shown on a matched
sequence-valued and a matched struct-valued key at the root and under a
matched field. -/
theorem nonstring_key_behavior :
    (∀ (n : Int) (v : Doc) (tl : EntryList) (q cp : List QueryElement)
       (st : List State) (out : List OutputStackFrame),
      serializeEntries (.econs (.intD n) v tl) ⟨q, cp, st, out⟩ =
        (match nextStepList q cp with
         | .IsMatch _ => .error .panicked
         | _ => .error (.execErr (.InternalError "Map key not a simple String!")))) ∧
    (∀ (b : Bool) (v : Doc) (tl : EntryList) (q cp : List QueryElement)
       (st : List State) (out : List OutputStackFrame),
      serializeEntries (.econs (.boolD b) v tl) ⟨q, cp, st, out⟩ =
        (match nextStepList q cp with
         | .IsMatch _ => .error .panicked
         | _ => .error (.execErr (.InternalError "Map key not a simple String!")))) ∧
    (∀ (v : Doc) (tl : EntryList) (q cp : List QueryElement)
       (st : List State) (out : List OutputStackFrame),
      serializeEntries (.econs .unitD v tl) ⟨q, cp, st, out⟩ =
        (match nextStepList q cp with
         | .IsMatch _ => .error .panicked
         | _ => .error (.execErr (.InternalError "Map key not a simple String!")))) ∧
    execQ [] (.mapD (.econs (.seqD (.dcons (.intD 1) .dnil)) (.intD 0) .enil)) =
      .error (.execErr (.InternalError "Map key not a simple String!")) ∧
    execQ [] (.mapD (.econs (.structD (.fcons "a" (.intD 1) .fnil)) (.intD 0)
        .enil)) =
      .error (.execErr (.InternalError "Map key not a simple String!")) ∧
    execQ [QueryElement.Field "m"] (.structD (.fcons "m"
        (.mapD (.econs (.seqD (.dcons (.intD 1) .dnil)) (.intD 0) .enil)) .fnil)) =
      .error (.execErr (.InternalError "Map key not a simple String!")) :=
  ⟨fun n v tl q cp st out =>
      primitive_key_dichotomy (.intD n) (.num n) (fun _ => rfl) v tl q cp st out,
   fun b v tl q cp st out =>
      primitive_key_dichotomy (.boolD b) (.bool b) (fun _ => rfl) v tl q cp st out,
   fun v tl q cp st out =>
      primitive_key_dichotomy .unitD .null (fun _ => rfl) v tl q cp st out,
   rfl, rfl, rfl⟩

/-- Splitting a successful Except bind into its two successful stages. -/
theorem bindE_ok {α β : Type} {x : Except RunErr α} {f : α → Except RunErr β}
    {b : β} (h : (x >>= f) = .ok b) : ∃ a, x = .ok a ∧ f a = .ok b := by
  cases x with
  | ok a => exact ⟨a, rfl, by simpa [bind, Except.bind] using h⟩
  | error e => simp [bind, Except.bind] at h

/-- possible_result never touches query, current_path or state. -/
theorem possible_result_ok {s s' : QueryExecutor} {v : JSON}
    (h : s.possible_result v = .ok s') :
    s'.query = s.query ∧ s'.current_path = s.current_path ∧ s'.state = s.state := by
  unfold QueryExecutor.possible_result at h
  split at h
  · split at h
    · exact absurd h (by simp)
    · split at h
      · exact absurd h (by simp)
      · split at h
        · exact absurd h (by simp)
        · exact absurd h (by simp)
        · simp only [Except.ok.injEq] at h
          subst h
          exact ⟨rfl, rfl, rfl⟩
        · simp only [Except.ok.injEq] at h
          subst h
          exact ⟨rfl, rfl, rfl⟩
        · simp only [Except.ok.injEq] at h
          subst h
          exact ⟨rfl, rfl, rfl⟩
  · simp only [Except.ok.injEq] at h
    subst h
    exact ⟨rfl, rfl, rfl⟩

/-- enter_name preserves query and state; the path gains exactly the entered
field name when the scope is entered, and nothing otherwise. -/
theorem enter_name_ok {s s2 : QueryExecutor} {n : String} {b : Bool}
    (h : s.enter_name n = .ok (b, s2)) :
    s2.query = s.query ∧ s2.state = s.state ∧
    s2.current_path =
      (if b then s.current_path ++ [QueryElement.Field n] else s.current_path) := by
  rcases hns : s.next_step with _ | e | rel
  · simp only [QueryExecutor.enter_name, hns] at h
    simp only [Except.ok.injEq, Prod.mk.injEq] at h
    obtain ⟨hb, hs⟩ := h
    subst hs
    simp [hb.symm]
  · rcases e with f | i
    · simp only [QueryExecutor.enter_name, hns] at h
      split at h
      · simp only [Except.ok.injEq, Prod.mk.injEq] at h
        obtain ⟨hb, hs⟩ := h
        subst hs
        simp [hb.symm]
      · simp only [Except.ok.injEq, Prod.mk.injEq] at h
        obtain ⟨hb, hs⟩ := h
        subst hs
        simp [hb.symm]
    · simp only [QueryExecutor.enter_name, hns] at h
      simp only [Except.ok.injEq, Prod.mk.injEq] at h
      obtain ⟨hb, hs⟩ := h
      subst hs
      simp [hb.symm]
  · simp only [QueryExecutor.enter_name, hns] at h
    split at h
    · exact absurd h (by simp)
    · simp only [Except.ok.injEq, Prod.mk.injEq] at h
      obtain ⟨hb, hs⟩ := h
      subst hs
      simp [hb.symm]

/-- must_enter_name preserves query and state and appends exactly the
entered name to the path. -/
theorem must_enter_name_ok {s s2 : QueryExecutor} {n : String}
    (h : s.must_enter_name n = .ok s2) :
    s2.query = s.query ∧ s2.state = s.state ∧
    s2.current_path = s.current_path ++ [QueryElement.Field n] := by
  unfold QueryExecutor.must_enter_name at h
  simp only [] at h
  split at h
  · split at h
    · exact absurd h (by simp)
    · simp only [Except.ok.injEq] at h
      subst h
      exact ⟨rfl, rfl, rfl⟩
  · simp only [Except.ok.injEq] at h
    subst h
    exact ⟨rfl, rfl, rfl⟩

/-- enter_index preserves query and state; the path gains exactly the
entered index when the element is entered, and nothing otherwise. -/
theorem enter_index_ok {s s2 : QueryExecutor} {i : Nat} {b : Bool}
    (h : s.enter_index i = (b, s2)) :
    s2.query = s.query ∧ s2.state = s.state ∧
    s2.current_path =
      (if b then s.current_path ++ [QueryElement.ArrayItem i] else s.current_path) := by
  unfold QueryExecutor.enter_index at h
  simp only [] at h
  split at h
  · simp only [Prod.mk.injEq] at h
    obtain ⟨hb, hs⟩ := h
    subst hs
    simp [hb.symm]
  · simp only [Prod.mk.injEq] at h
    obtain ⟨hb, hs⟩ := h
    subst hs
    simp [hb.symm]

/-- enter_sequence with a known length pushes exactly one Sequence state. -/
theorem enter_sequence_some_ok {s s1 : QueryExecutor} {len : Nat}
    (h : s.enter_sequence (some len) = .ok s1) :
    s1.query = s.query ∧ s1.current_path = s.current_path ∧
    s1.state = .Sequence 0 len :: s.state := by
  unfold QueryExecutor.enter_sequence at h
  simp only [] at h
  split at h
  · simp only [Except.ok.injEq] at h
    subst h
    exact ⟨rfl, rfl, rfl⟩
  · simp only [Except.ok.injEq] at h
    subst h
    exact ⟨rfl, rfl, rfl⟩

/-- exit_sequence pops exactly the Sequence state it finds on top, leaving
query and path alone. -/
theorem exit_sequence_ok {s s' : QueryExecutor} {a b : Nat} {tl : List State}
    (hst : s.state = .Sequence a b :: tl) (h : s.exit_sequence = .ok s') :
    s'.query = s.query ∧ s'.current_path = s.current_path ∧ s'.state = tl := by
  unfold QueryExecutor.exit_sequence at h
  simp only [] at h
  split at h
  · split at h
    · obtain ⟨fr2, hf, h2⟩ := bindE_ok h
      obtain ⟨y, hy, h3⟩ := bindE_ok h2
      simp only [pure, Except.pure, Except.ok.injEq] at hy
      subst hy
      simp only [hst] at h3
      simp only [Except.ok.injEq] at h3
      subst h3
      exact ⟨rfl, rfl, rfl⟩
    · obtain ⟨y, hy, h3⟩ := bindE_ok h
      exact absurd hy (by simp)
  · obtain ⟨y, hy, h3⟩ := bindE_ok h
    simp only [pure, Except.pure, Except.ok.injEq] at hy
    subst hy
    simp only [hst] at h3
    simp only [Except.ok.injEq] at h3
    subst h3
    exact ⟨rfl, rfl, rfl⟩

/-- exit_map drops exactly the top state, leaving query and path alone. -/
theorem exit_map_ok {s s' : QueryExecutor} (h : s.exit_map = .ok s') :
    s'.query = s.query ∧ s'.current_path = s.current_path ∧
    s'.state = s.state.tail := by
  unfold QueryExecutor.exit_map at h
  simp only [] at h
  split at h
  · split at h
    · obtain ⟨fr2, hf, h2⟩ := bindE_ok h
      obtain ⟨y, hy, h3⟩ := bindE_ok h2
      simp only [pure, Except.pure, Except.ok.injEq] at hy
      subst hy
      simp only [Except.ok.injEq] at h3
      subst h3
      exact ⟨rfl, rfl, rfl⟩
    · obtain ⟨y, hy, h3⟩ := bindE_ok h
      exact absurd hy (by simp)
  · obtain ⟨y, hy, h3⟩ := bindE_ok h
    simp only [pure, Except.pure, Except.ok.injEq] at hy
    subst hy
    simp only [Except.ok.injEq] at h3
    subst h3
    exact ⟨rfl, rfl, rfl⟩

/-- enter_map over an explicit executor: one StartMap state is pushed and
only the output stack may change. -/
theorem enter_map_mk (q cp : List QueryElement) (st : List State)
    (out : List OutputStackFrame) :
    (⟨q, cp, st, out⟩ : QueryExecutor).enter_map =
      ⟨q, cp, .StartMap :: st,
        if (⟨q, cp, st, out⟩ : QueryExecutor).is_match then
          OutputStackFrame.map :: out else out⟩ := by
  unfold QueryExecutor.enter_map
  split <;> simp_all

/-- A successful exit_map_key changes nothing and certifies that a string
key is pending on top of the state. -/
theorem exit_map_key_ok {s s' : QueryExecutor} (h : s.exit_map_key = .ok s') :
    s' = s ∧ ∃ k tl, s.state = .MapKeyStr k :: tl := by
  unfold QueryExecutor.exit_map_key at h
  split at h
  · simp only [Except.ok.injEq] at h
    subst h
    rename_i k tl heq
    exact ⟨rfl, k, tl, heq⟩
  · exact absurd h (by simp)

/-- A successful enter_map_value pushes exactly one MapValue state. -/
theorem enter_map_value_ok {s s' : QueryExecutor} (h : s.enter_map_value = .ok s') :
    s' = { s with state := .MapValue :: s.state } := by
  unfold QueryExecutor.enter_map_value at h
  split at h
  · simp only [Except.ok.injEq] at h
    exact h.symm
  · exact absurd h (by simp)

/-- exit_map_value on the three-state key suffix pops all three states and
drops the pending key name from the path. -/
theorem exit_map_value_ok {s s' : QueryExecutor} {k : String} {tl : List State}
    (hst : s.state = .MapValue :: .MapKeyStr k :: .MapKey :: tl)
    (h : s.exit_map_value = .ok s') :
    s'.query = s.query ∧ s'.current_path = s.current_path.dropLast ∧
    s'.state = tl ∧ s'.output = s.output := by
  unfold QueryExecutor.exit_map_value at h
  simp only [hst] at h
  simp only [QueryExecutor.exit_name, Except.ok.injEq] at h
  subst h
  exact ⟨rfl, rfl, rfl, rfl⟩

/-- enter_map only touches the output stack, pushing one StartMap state. -/
theorem enter_map_state (s : QueryExecutor) :
    (s.enter_map).query = s.query ∧ (s.enter_map).current_path = s.current_path ∧
    (s.enter_map).state = .StartMap :: s.state := by
  unfold QueryExecutor.enter_map
  split <;> exact ⟨rfl, rfl, rfl⟩

mutual
/-- A successful serialization of any document restores the executor's
current_path and state stacks exactly (every enter is undone by its exit);
the query is never touched. -/
theorem pres_doc : ∀ (d : Doc) {s s' : QueryExecutor}, headNotKey s.state →
    serializeDoc d s = .ok s' →
    s'.query = s.query ∧ s'.current_path = s.current_path ∧ s'.state = s.state
  | .boolD b, s, s', hk, h => by
    rw [serializeDoc] at h
    exact possible_result_ok h
  | .intD n, s, s', hk, h => by
    rw [serializeDoc] at h
    exact possible_result_ok h
  | .unitD, s, s', hk, h => by
    rw [serializeDoc] at h
    exact possible_result_ok h
  | .strD v, s, s', hk, h => by
    rw [serializeDoc] at h
    rcases hstE : s.state with _ | ⟨hd, tlst⟩
    · rw [QueryExecutor.serialize_str, hstE] at h
      exact absurd h (by simp)
    · cases hd with
      | MapKey => rw [hstE] at hk; exact hk.elim
      | MapKeyStr k => rw [hstE] at hk; exact hk.elim
      | StartMap =>
        rw [QueryExecutor.serialize_str, hstE] at h
        obtain ⟨hq, hcp, hs⟩ := possible_result_ok h
        exact ⟨hq, hcp, hs.trans hstE⟩
      | MapValue =>
        rw [QueryExecutor.serialize_str, hstE] at h
        obtain ⟨hq, hcp, hs⟩ := possible_result_ok h
        exact ⟨hq, hcp, hs.trans hstE⟩
      | Sequence i l =>
        rw [QueryExecutor.serialize_str, hstE] at h
        obtain ⟨hq, hcp, hs⟩ := possible_result_ok h
        exact ⟨hq, hcp, hs.trans hstE⟩
  | .unitVariant c, s, s', hk, h => by
    rw [serializeDoc] at h
    rcases hstE : s.state with _ | ⟨hd, tlst⟩
    · rw [QueryExecutor.serialize_str, hstE] at h
      exact absurd h (by simp)
    · cases hd with
      | MapKey => rw [hstE] at hk; exact hk.elim
      | MapKeyStr k => rw [hstE] at hk; exact hk.elim
      | StartMap =>
        rw [QueryExecutor.serialize_str, hstE] at h
        obtain ⟨hq, hcp, hs⟩ := possible_result_ok h
        exact ⟨hq, hcp, hs.trans hstE⟩
      | MapValue =>
        rw [QueryExecutor.serialize_str, hstE] at h
        obtain ⟨hq, hcp, hs⟩ := possible_result_ok h
        exact ⟨hq, hcp, hs.trans hstE⟩
      | Sequence i l =>
        rw [QueryExecutor.serialize_str, hstE] at h
        obtain ⟨hq, hcp, hs⟩ := possible_result_ok h
        exact ⟨hq, hcp, hs.trans hstE⟩
  | .newtypeStruct v, s, s', hk, h => by
    rw [serializeDoc] at h
    exact pres_doc v hk h
  | .newtypeVariant c v, s, s', hk, h => by
    rw [serializeDoc] at h
    obtain ⟨p, h1, h2⟩ := bindE_ok h
    obtain ⟨b, s1⟩ := p
    obtain ⟨hq1, hst1, hcp1⟩ := enter_name_ok h1
    simp only [] at h2
    cases b with
    | false =>
      rw [if_neg (by decide)] at h2 hcp1
      simp only [pure, Except.pure, Except.ok.injEq] at h2
      subst h2
      exact ⟨hq1, hcp1, hst1⟩
    | true =>
      rw [if_pos (by decide)] at h2 hcp1
      obtain ⟨s2, h3, h4⟩ := bindE_ok h2
      have hk1 : headNotKey s1.state := by rw [hst1]; exact hk
      obtain ⟨hq2, hcp2, hst2⟩ := pres_doc v hk1 h3
      simp only [pure, Except.pure, Except.ok.injEq] at h4
      subst h4
      refine ⟨?_, ?_, ?_⟩
      · show s2.query = s.query
        rw [hq2, hq1]
      · show s2.current_path.dropLast = s.current_path
        rw [hcp2, hcp1, List.dropLast_concat]
      · show s2.state = s.state
        rw [hst2, hst1]
  | .seqD xs, s, s', hk, h => by
    rw [serializeDoc] at h
    obtain ⟨s1, h1, h2⟩ := bindE_ok h
    obtain ⟨hq1, hcp1, hst1⟩ := enter_sequence_some_ok h1
    obtain ⟨s2, h3, h4⟩ := bindE_ok h2
    obtain ⟨hq2, hcp2, j, hst2⟩ := pres_items xs hst1 h3
    obtain ⟨hq3, hcp3, hst3⟩ := exit_sequence_ok hst2 h4
    exact ⟨by rw [hq3, hq2, hq1], by rw [hcp3, hcp2, hcp1], hst3⟩
  | .seqNoLen xs, s, s', hk, h => by
    rw [serializeDoc] at h
    obtain ⟨s1, h1, h2⟩ := bindE_ok h
    simp [QueryExecutor.enter_sequence] at h1
  | .structD fs, s, s', hk, h => by
    rw [serializeDoc] at h
    obtain ⟨s2, h1, h2⟩ := bindE_ok h
    obtain ⟨hmq, hmcp, hmst⟩ := enter_map_state s
    obtain ⟨hq2, hcp2, hst2⟩ := pres_fields fs (by rw [hmst]; trivial) h1
    obtain ⟨hq3, hcp3, hst3⟩ := exit_map_ok h2
    refine ⟨by rw [hq3, hq2, hmq], by rw [hcp3, hcp2, hmcp], ?_⟩
    rw [hst3, hst2, hmst]
    rfl
  | .mapD es, s, s', hk, h => by
    rw [serializeDoc] at h
    obtain ⟨s2, h1, h2⟩ := bindE_ok h
    obtain ⟨hmq, hmcp, hmst⟩ := enter_map_state s
    obtain ⟨hq2, hcp2, hst2⟩ := pres_entries es (by rw [hmst]; trivial) h1
    obtain ⟨hq3, hcp3, hst3⟩ := exit_map_ok h2
    refine ⟨by rw [hq3, hq2, hmq], by rw [hcp3, hcp2, hmcp], ?_⟩
    rw [hst3, hst2, hmst]
    rfl
  | .structVariant c fs, s, s', hk, h => by
    rw [serializeDoc] at h
    obtain ⟨s1, h1, h2⟩ := bindE_ok h
    obtain ⟨hmq, hmcp, hmst⟩ := enter_map_state s
    obtain ⟨hq1, hst1, hcp1⟩ := must_enter_name_ok h1
    obtain ⟨s2, h3, h4⟩ := bindE_ok h2
    obtain ⟨hq2, hcp2, hst2⟩ := pres_fields fs (by rw [hst1, hmst]; trivial) h3
    obtain ⟨s3, h5, h6⟩ := bindE_ok h4
    obtain ⟨hq3, hcp3, hst3⟩ := exit_map_ok h5
    simp only [pure, Except.pure, Except.ok.injEq] at h6
    subst h6
    refine ⟨?_, ?_, ?_⟩
    · show s3.query = s.query
      rw [hq3, hq2, hq1, hmq]
    · show s3.current_path.dropLast = s.current_path
      rw [hcp3, hcp2, hcp1, hmcp, List.dropLast_concat]
    · show s3.state = s.state
      rw [hst3, hst2, hst1, hmst]
      rfl
  | .tupleVariant c xs, s, s', hk, h => by
    rw [serializeDoc] at h
    obtain ⟨s1, h1, h2⟩ := bindE_ok h
    obtain ⟨hmq, hmcp, hmst⟩ := enter_map_state s
    obtain ⟨hq1, hst1, hcp1⟩ := must_enter_name_ok h1
    obtain ⟨s2, h3, h4⟩ := bindE_ok h2
    obtain ⟨hq2, hcp2, hst2⟩ := enter_sequence_some_ok h3
    obtain ⟨s3, h5, h6⟩ := bindE_ok h4
    obtain ⟨hq3, hcp3, j, hst3⟩ := pres_items xs hst2 h5
    obtain ⟨s4, h7, h8⟩ := bindE_ok h6
    obtain ⟨hq4, hcp4, hst4⟩ := exit_sequence_ok hst3 h7
    obtain ⟨s5, h9, h10⟩ := bindE_ok h8
    obtain ⟨hq5, hcp5, hst5⟩ := exit_map_ok h9
    simp only [pure, Except.pure, Except.ok.injEq] at h10
    subst h10
    refine ⟨?_, ?_, ?_⟩
    · show s5.query = s.query
      rw [hq5, hq4, hq3, hq2, hq1, hmq]
    · show s5.current_path.dropLast = s.current_path
      rw [hcp5, hcp4, hcp3, hcp2, hcp1, hmcp, List.dropLast_concat]
    · show s5.state = s.state
      rw [hst5, hst4, hst1, hmst]
      rfl

/-- A successful serialization of a map KEY document either leaves the
executor's path and state alone (the key was not a string, or produced no
pending name) or pushes exactly one pending MapKeyStr state whose field
name is the last element of the new path. -/
theorem pres_key : ∀ (d : Doc) {s s' : QueryExecutor} {strest : List State},
    s.state = .MapKey :: strest → serializeDoc d s = .ok s' →
    s'.query = s.query ∧
    ((s'.current_path = s.current_path ∧ s'.state = s.state) ∨
     (∃ k, s'.current_path.dropLast = s.current_path ∧
        s'.state = .MapKeyStr k :: s.state))
  | .boolD b, s, s', strest, hst, h => by
    rw [serializeDoc] at h
    obtain ⟨hq, hcp, hs⟩ := possible_result_ok h
    exact ⟨hq, .inl ⟨hcp, hs⟩⟩
  | .intD n, s, s', strest, hst, h => by
    rw [serializeDoc] at h
    obtain ⟨hq, hcp, hs⟩ := possible_result_ok h
    exact ⟨hq, .inl ⟨hcp, hs⟩⟩
  | .unitD, s, s', strest, hst, h => by
    rw [serializeDoc] at h
    obtain ⟨hq, hcp, hs⟩ := possible_result_ok h
    exact ⟨hq, .inl ⟨hcp, hs⟩⟩
  | .strD v, s, s', strest, hst, h => by
    rw [serializeDoc, QueryExecutor.serialize_str, hst] at h
    obtain ⟨hq, hstr, hcp⟩ := must_enter_name_ok h
    refine ⟨hq, .inr ⟨v, ?_, ?_⟩⟩
    · rw [hcp]
      rw [show ({ s with state := State.MapKeyStr v :: s.state } :
        QueryExecutor).current_path = s.current_path from rfl, List.dropLast_concat]
    · rw [hstr, hst]
  | .unitVariant c, s, s', strest, hst, h => by
    rw [serializeDoc, QueryExecutor.serialize_str, hst] at h
    obtain ⟨hq, hstr, hcp⟩ := must_enter_name_ok h
    refine ⟨hq, .inr ⟨c, ?_, ?_⟩⟩
    · rw [hcp]
      rw [show ({ s with state := State.MapKeyStr c :: s.state } :
        QueryExecutor).current_path = s.current_path from rfl, List.dropLast_concat]
    · rw [hstr, hst]
  | .newtypeStruct v, s, s', strest, hst, h => by
    rw [serializeDoc] at h
    exact pres_key v hst h
  | .newtypeVariant c v, s, s', strest, hst, h => by
    rw [serializeDoc] at h
    obtain ⟨p, h1, h2⟩ := bindE_ok h
    obtain ⟨b, s1⟩ := p
    obtain ⟨hq1, hst1, hcp1⟩ := enter_name_ok h1
    simp only [] at h2
    cases b with
    | false =>
      rw [if_neg (by decide)] at h2 hcp1
      simp only [pure, Except.pure, Except.ok.injEq] at h2
      subst h2
      exact ⟨hq1, .inl ⟨hcp1, hst1⟩⟩
    | true =>
      rw [if_pos (by decide)] at h2 hcp1
      obtain ⟨s2, h3, h4⟩ := bindE_ok h2
      obtain ⟨hq2, hrest⟩ := pres_key v (by rw [hst1, hst]) h3
      simp only [pure, Except.pure, Except.ok.injEq] at h4
      subst h4
      refine ⟨by rw [show (s2.exit_name).query = s2.query from rfl, hq2, hq1], ?_⟩
      rcases hrest with ⟨hcp2, hst2⟩ | ⟨k, hcp2, hst2⟩
      · refine .inl ⟨?_, by rw [show (s2.exit_name).state = s2.state from rfl, hst2, hst1]⟩
        rw [show (s2.exit_name).current_path = s2.current_path.dropLast from rfl,
          hcp2, hcp1, List.dropLast_concat]
      · refine .inr ⟨k, ?_, by rw [show (s2.exit_name).state = s2.state from rfl,
          hst2, hst1]⟩
        rw [show (s2.exit_name).current_path = s2.current_path.dropLast from rfl,
          hcp2, hcp1, List.dropLast_concat]
  | .seqD xs, s, s', strest, hst, h => by
    rw [serializeDoc] at h
    obtain ⟨s1, h1, h2⟩ := bindE_ok h
    obtain ⟨hq1, hcp1, hst1⟩ := enter_sequence_some_ok h1
    obtain ⟨s2, h3, h4⟩ := bindE_ok h2
    obtain ⟨hq2, hcp2, j, hst2⟩ := pres_items xs hst1 h3
    obtain ⟨hq3, hcp3, hst3⟩ := exit_sequence_ok hst2 h4
    exact ⟨by rw [hq3, hq2, hq1], .inl ⟨by rw [hcp3, hcp2, hcp1], hst3⟩⟩
  | .seqNoLen xs, s, s', strest, hst, h => by
    rw [serializeDoc] at h
    obtain ⟨s1, h1, h2⟩ := bindE_ok h
    simp [QueryExecutor.enter_sequence] at h1
  | .structD fs, s, s', strest, hst, h => by
    rw [serializeDoc] at h
    obtain ⟨s2, h1, h2⟩ := bindE_ok h
    obtain ⟨hmq, hmcp, hmst⟩ := enter_map_state s
    obtain ⟨hq2, hcp2, hst2⟩ := pres_fields fs (by rw [hmst]; trivial) h1
    obtain ⟨hq3, hcp3, hst3⟩ := exit_map_ok h2
    refine ⟨by rw [hq3, hq2, hmq], .inl ⟨by rw [hcp3, hcp2, hmcp], ?_⟩⟩
    rw [hst3, hst2, hmst]
    rfl
  | .mapD es, s, s', strest, hst, h => by
    rw [serializeDoc] at h
    obtain ⟨s2, h1, h2⟩ := bindE_ok h
    obtain ⟨hmq, hmcp, hmst⟩ := enter_map_state s
    obtain ⟨hq2, hcp2, hst2⟩ := pres_entries es (by rw [hmst]; trivial) h1
    obtain ⟨hq3, hcp3, hst3⟩ := exit_map_ok h2
    refine ⟨by rw [hq3, hq2, hmq], .inl ⟨by rw [hcp3, hcp2, hmcp], ?_⟩⟩
    rw [hst3, hst2, hmst]
    rfl
  | .structVariant c fs, s, s', strest, hst, h => by
    rw [serializeDoc] at h
    obtain ⟨s1, h1, h2⟩ := bindE_ok h
    obtain ⟨hmq, hmcp, hmst⟩ := enter_map_state s
    obtain ⟨hq1, hst1, hcp1⟩ := must_enter_name_ok h1
    obtain ⟨s2, h3, h4⟩ := bindE_ok h2
    obtain ⟨hq2, hcp2, hst2⟩ := pres_fields fs (by rw [hst1, hmst]; trivial) h3
    obtain ⟨s3, h5, h6⟩ := bindE_ok h4
    obtain ⟨hq3, hcp3, hst3⟩ := exit_map_ok h5
    simp only [pure, Except.pure, Except.ok.injEq] at h6
    subst h6
    refine ⟨by rw [show (s3.exit_name).query = s3.query from rfl, hq3, hq2, hq1, hmq],
      .inl ⟨?_, ?_⟩⟩
    · rw [show (s3.exit_name).current_path = s3.current_path.dropLast from rfl,
        hcp3, hcp2, hcp1, hmcp, List.dropLast_concat]
    · rw [show (s3.exit_name).state = s3.state from rfl, hst3, hst2, hst1, hmst]
      rfl
  | .tupleVariant c xs, s, s', strest, hst, h => by
    rw [serializeDoc] at h
    obtain ⟨s1, h1, h2⟩ := bindE_ok h
    obtain ⟨hmq, hmcp, hmst⟩ := enter_map_state s
    obtain ⟨hq1, hst1, hcp1⟩ := must_enter_name_ok h1
    obtain ⟨s2, h3, h4⟩ := bindE_ok h2
    obtain ⟨hq2, hcp2, hst2⟩ := enter_sequence_some_ok h3
    obtain ⟨s3, h5, h6⟩ := bindE_ok h4
    obtain ⟨hq3, hcp3, j, hst3⟩ := pres_items xs hst2 h5
    obtain ⟨s4, h7, h8⟩ := bindE_ok h6
    obtain ⟨hq4, hcp4, hst4⟩ := exit_sequence_ok hst3 h7
    obtain ⟨s5, h9, h10⟩ := bindE_ok h8
    obtain ⟨hq5, hcp5, hst5⟩ := exit_map_ok h9
    simp only [pure, Except.pure, Except.ok.injEq] at h10
    subst h10
    refine ⟨by rw [show (s5.exit_name).query = s5.query from rfl,
      hq5, hq4, hq3, hq2, hq1, hmq], .inl ⟨?_, ?_⟩⟩
    · rw [show (s5.exit_name).current_path = s5.current_path.dropLast from rfl,
        hcp5, hcp4, hcp3, hcp2, hcp1, hmcp, List.dropLast_concat]
    · rw [show (s5.exit_name).state = s5.state from rfl, hst5, hst4, hst1, hmst]
      rfl

/-- A successful sequence-element loop restores the path, keeps the query,
and only advances the counter of the Sequence state it runs under. -/
theorem pres_items : ∀ (xs : DocList) {s s' : QueryExecutor} {idx len : Nat}
    {strest : List State}, s.state = .Sequence idx len :: strest →
    serializeItems xs s = .ok s' →
    s'.query = s.query ∧ s'.current_path = s.current_path ∧
    ∃ j, s'.state = .Sequence j len :: strest
  | .dnil, s, s', idx, len, strest, hst, h => by
    rw [serializeItems] at h
    simp only [Except.ok.injEq] at h
    subst h
    exact ⟨rfl, rfl, idx, hst⟩
  | .dcons hd tl, s, s', idx, len, strest, hst, h => by
    rw [serializeItems, hst] at h
    simp only [] at h
    by_cases hil : idx < len
    · rw [if_pos hil] at h
      rcases hE : ({ s with state := State.Sequence (idx + 1) len :: strest } :
          QueryExecutor).enter_index idx with ⟨b, s2⟩
      rw [hE] at h
      obtain ⟨hq2, hst2, hcp2⟩ := enter_index_ok hE
      cases b with
      | false =>
        simp only [] at h
        rw [if_neg (by decide)] at hcp2
        obtain ⟨hq3, hcp3, j, hst3⟩ := pres_items tl hst2 h
        exact ⟨by rw [hq3, hq2], by rw [hcp3, hcp2], j, hst3⟩
      | true =>
        simp only [] at h
        rw [if_pos (by decide)] at hcp2
        obtain ⟨s3, h1, h2⟩ := bindE_ok h
        obtain ⟨hq3, hcp3, hst3⟩ := pres_doc hd (by rw [hst2]; trivial) h1
        have hstE : (s3.exit_index).state = State.Sequence (idx + 1) len :: strest := by
          rw [show (s3.exit_index).state = s3.state from rfl, hst3, hst2]
        obtain ⟨hq4, hcp4, j, hst4⟩ := pres_items tl hstE h2
        refine ⟨by rw [hq4, show (s3.exit_index).query = s3.query from rfl, hq3, hq2],
          ?_, j, hst4⟩
        rw [hcp4, show (s3.exit_index).current_path = s3.current_path.dropLast from rfl,
          hcp3, hcp2]
        rw [show ({ s with state := State.Sequence (idx + 1) len :: strest } :
          QueryExecutor).current_path = s.current_path from rfl, List.dropLast_concat]
    · rw [if_neg hil] at h
      exact absurd h (by simp)

/-- A successful struct-field loop restores the path and state stacks
exactly and keeps the query. -/
theorem pres_fields : ∀ (fs : FieldList) {s s' : QueryExecutor},
    headNotKey s.state → serializeFields fs s = .ok s' →
    s'.query = s.query ∧ s'.current_path = s.current_path ∧ s'.state = s.state
  | .fnil, s, s', hk, h => by
    rw [serializeFields] at h
    simp only [Except.ok.injEq] at h
    subst h
    exact ⟨rfl, rfl, rfl⟩
  | .fcons k v tl, s, s', hk, h => by
    rw [serializeFields] at h
    obtain ⟨p, h1, h2⟩ := bindE_ok h
    obtain ⟨b, s1⟩ := p
    obtain ⟨hq1, hst1, hcp1⟩ := enter_name_ok h1
    simp only [] at h2
    cases b with
    | false =>
      rw [if_neg (by decide)] at h2 hcp1
      obtain ⟨hq2, hcp2, hst2⟩ := pres_fields tl (by rw [hst1]; exact hk) h2
      exact ⟨by rw [hq2, hq1], by rw [hcp2, hcp1], by rw [hst2, hst1]⟩
    | true =>
      rw [if_pos (by decide)] at h2 hcp1
      obtain ⟨s2, h3, h4⟩ := bindE_ok h2
      obtain ⟨hq2, hcp2, hst2⟩ := pres_doc v (by rw [hst1]; exact hk) h3
      have hk2 : headNotKey (s2.exit_name).state := by
        rw [show (s2.exit_name).state = s2.state from rfl, hst2, hst1]
        exact hk
      obtain ⟨hq3, hcp3, hst3⟩ := pres_fields tl hk2 h4
      refine ⟨by rw [hq3, show (s2.exit_name).query = s2.query from rfl, hq2, hq1],
        ?_, by rw [hst3, show (s2.exit_name).state = s2.state from rfl, hst2, hst1]⟩
      rw [hcp3, show (s2.exit_name).current_path = s2.current_path.dropLast from rfl,
        hcp2, hcp1, List.dropLast_concat]

/-- A successful map-entry loop restores the path and state stacks exactly
and keeps the query. -/
theorem pres_entries : ∀ (es : EntryList) {s s' : QueryExecutor},
    headNotKey s.state → serializeEntries es s = .ok s' →
    s'.query = s.query ∧ s'.current_path = s.current_path ∧ s'.state = s.state
  | .enil, s, s', hk, h => by
    rw [serializeEntries] at h
    simp only [Except.ok.injEq] at h
    subst h
    exact ⟨rfl, rfl, rfl⟩
  | .econs k v tl, s, s', hk, h => by
    rw [serializeEntries] at h
    obtain ⟨s2, h1, h2⟩ := bindE_ok h
    obtain ⟨hq2, hrest⟩ := pres_key k
      (show (s.enter_map_key).state = .MapKey :: s.state from rfl) h1
    obtain ⟨s3, h3, h4⟩ := bindE_ok h2
    obtain ⟨hs3, kk, tl2, hkeyed⟩ := exit_map_key_ok h3
    rw [hs3] at h4
    rcases hrest with ⟨hcp2, hst2⟩ | ⟨k2, hcp2, hst2⟩
    · rw [hst2, show (s.enter_map_key).state = .MapKey :: s.state from rfl] at hkeyed
      exact absurd hkeyed (by simp)
    · obtain ⟨s4, h5, h6⟩ := bindE_ok h4
      have hs4 := enter_map_value_ok h5
      subst hs4
      obtain ⟨s5, h7, h8⟩ := bindE_ok h6
      obtain ⟨hq5, hcp5, hst5⟩ := pres_doc v (by
        rw [show ({ s2 with state := State.MapValue :: s2.state } :
          QueryExecutor).state = State.MapValue :: s2.state from rfl]
        trivial) h7
      obtain ⟨s6, h9, h10⟩ := bindE_ok h8
      have hst5E : s5.state =
          .MapValue :: .MapKeyStr k2 :: .MapKey :: s.state := by
        rw [hst5, show ({ s2 with state := State.MapValue :: s2.state } :
          QueryExecutor).state = State.MapValue :: s2.state from rfl, hst2]
        rfl
      obtain ⟨hq6, hcp6, hst6, hout6⟩ := exit_map_value_ok hst5E h9
      have hk6 : headNotKey s6.state := by rw [hst6]; exact hk
      obtain ⟨hq7, hcp7, hst7⟩ := pres_entries tl hk6 h10
      refine ⟨?_, ?_, by rw [hst7, hst6]⟩
      · rw [hq7, hq6, hq5, show ({ s2 with state := State.MapValue :: s2.state } :
          QueryExecutor).query = s2.query from rfl, hq2]
        rfl
      · rw [hcp7, hcp6, hcp5, show ({ s2 with state := State.MapValue :: s2.state } :
          QueryExecutor).current_path = s2.current_path from rfl, hcp2]
        rfl
end

/-- C9.  Invariant of every traversal: current_path is mutated only by
matching enter/exit pairs, so any serialization that runs to completion
hands back the executor with current_path (and the state stack) exactly as
it found them, whatever was recorded in the output along the way; the
query is never touched.  Together with the enter/exit lemmas (enter_name /
enter_index append exactly the entered element and exit_name / exit_index
pop it), the path at any interior point is the exact sequence of elements
used to reach the present location from the node the traversal started
at. -/
theorem current_path_enter_exit_balanced (d : Doc) (q cp : List QueryElement)
    (st : List State) (out : List OutputStackFrame) (s' : QueryExecutor)
    (hk : headNotKey st) (hok : serializeDoc d ⟨q, cp, st, out⟩ = .ok s') :
    s'.current_path = cp ∧ s'.state = st ∧ s'.query = q := by
  obtain ⟨hq, hcp, hst⟩ := pres_doc d hk hok
  exact ⟨hcp, hst, hq⟩

/-- C9 (witness): the full traversal of the Dog struct under the query
.name starts and ends with an empty current_path and state stack. -/
theorem current_path_enter_exit_balanced_witness :
    (⟨[QueryElement.Field "name"], [], [],
      [⟨.Map, [], [], [JSON.str "Buddy"]⟩]⟩ :
        QueryExecutor).current_path = [] ∧
    (⟨[QueryElement.Field "name"], [], [],
      [⟨.Map, [], [], [JSON.str "Buddy"]⟩]⟩ :
        QueryExecutor).state = ([] : List State) ∧
    (⟨[QueryElement.Field "name"], [], [],
      [⟨.Map, [], [], [JSON.str "Buddy"]⟩]⟩ :
        QueryExecutor).query = [QueryElement.Field "name"] :=
  current_path_enter_exit_balanced exampleDog [QueryElement.Field "name"] [] []
    [OutputStackFrame.default] _ trivial rfl

/-- Appending one digit multiplies the accumulated value by ten. -/
theorem digitsToNat_append (ds : List Char) (c : Char) :
    digitsToNat (ds ++ [c]) = digitsToNat ds * 10 + (c.toNat - '0'.toNat) := by
  unfold digitsToNat
  rw [List.foldl_append]
  rfl

/-- The rendered digit of a value below ten is a decimal digit character
and decodes back to the value. -/
theorem digitChar_spec (d : Nat) (h : d < 10) :
    (digitChar d).isDigit = true ∧ (digitChar d).toNat - '0'.toNat = d := by
  interval_cases d <;> exact ⟨by decide, by decide⟩

/-- natDigitsA with enough fuel produces a non-empty all-digit rendering
that decodes to the value. -/
theorem natDigitsA_spec : ∀ (fuel n : Nat), n ≤ fuel ∨ n < 10 →
    digitsToNat (natDigitsA fuel n) = n ∧
    (∀ c ∈ natDigitsA fuel n, c.isDigit = true) ∧ natDigitsA fuel n ≠ []
  | 0, n, hb => by
    have hn : n < 10 := by omega
    obtain ⟨hd, hv⟩ := digitChar_spec n hn
    refine ⟨?_, ?_, by simp [natDigitsA]⟩
    · show digitsToNat ([] ++ [digitChar n]) = n
      rw [digitsToNat_append, hv]
      simp [digitsToNat]
    · intro c hc
      rw [natDigitsA] at hc
      simp at hc
      rw [hc]
      exact hd
  | fuel + 1, n, hb => by
    rw [natDigitsA]
    by_cases hn : n < 10
    · obtain ⟨hd, hv⟩ := digitChar_spec n hn
      rw [if_pos hn]
      refine ⟨?_, ?_, by simp⟩
      · show digitsToNat ([] ++ [digitChar n]) = n
        rw [digitsToNat_append, hv]
        simp [digitsToNat]
      · intro c hc
        simp at hc
        rw [hc]
        exact hd
    · rw [if_neg hn]
      have hble : n / 10 ≤ fuel ∨ n / 10 < 10 := by
        left
        omega
      obtain ⟨ihv, ihd, ihne⟩ := natDigitsA_spec fuel (n / 10) hble
      obtain ⟨hd, hv⟩ := digitChar_spec (n % 10) (by omega)
      refine ⟨?_, ?_, by simp⟩
      · rw [digitsToNat_append, ihv, hv]
        omega
      · intro c hc
        simp only [List.mem_append, List.mem_singleton] at hc
        rcases hc with hc | hc
        · exact ihd c hc
        · rw [hc]
          exact hd

/-- What Rust renders for a usize index: non-empty decimal digits decoding
to the index. -/
theorem natDigits_spec (n : Nat) :
    digitsToNat (natDigits n) = n ∧
    (∀ c ∈ natDigits n, c.isDigit = true) ∧ natDigits n ≠ [] :=
  natDigitsA_spec n n (by omega)

/-- The read_array digit loop over a run of digits followed by the closing
bracket collects exactly the digits and stops just past the bracket. -/
theorem readArrayLoopA_digits : ∀ (ds rest : List Char) (p : Parser)
    (acc : List Char), (∀ c ∈ ds, c.isDigit = true) →
    readArrayLoopA (ds ++ ']' :: rest) p acc =
      .ok (acc ++ ds, { p with position := p.position + (ds.length + 1) })
  | [], rest, p, acc, hd => by
    rw [List.nil_append, readArrayLoopA]
    simp
  | c :: ds, rest, p, acc, hd => by
    have hcd : c.isDigit = true := hd c (by simp)
    have hcne : ¬(c = ']') := by
      intro he
      rw [he] at hcd
      exact absurd hcd (by decide)
    rw [List.cons_append, readArrayLoopA, if_neg hcne, if_pos hcd,
      readArrayLoopA_digits ds rest _ _ (fun c2 hc2 => hd c2 (by simp [hc2]))]
    have hpos : p.position + 1 + (ds.length + 1) =
        p.position + ((c :: ds).length + 1) := by
      simp [List.length_cons]
      omega
    rw [show acc ++ [c] ++ ds = acc ++ c :: ds by simp, hpos]

/-- The read_field identifier loop over grammar-expressible identifier
characters followed by a clean stopper collects exactly the identifier and
leaves the position on the stopper. -/
theorem readFieldLoopA_chars : ∀ (id rest : List Char) (p : Parser)
    (acc : List Char),
    (∀ c ∈ id, ¬(c = '.') ∧ ¬(c = '[') ∧ c.isWhitespace = false) →
    fieldStopper rest →
    readFieldLoopA (id ++ rest) p acc =
      .ok (acc ++ id, { p with position := p.position + id.length })
  | [], rest, p, acc, hid, hstop => by
    rw [List.nil_append]
    cases rest with
    | nil =>
      rw [readFieldLoopA]
      simp
    | cons c rest2 =>
      rw [readFieldLoopA, if_pos (show c = '.' ∨ c = '[' from hstop)]
      simp
  | c :: id, rest, p, acc, hid, hstop => by
    obtain ⟨hdot, hbr, hws⟩ := hid c (by simp)
    rw [List.cons_append, readFieldLoopA, if_neg (by tauto),
      if_neg (by simp [hws]),
      readFieldLoopA_chars id rest _ _ (fun c2 hc2 => hid c2 (by simp [hc2])) hstop]
    have hpos : p.position + 1 + id.length = p.position + (c :: id).length := by
      simp [List.length_cons]
      omega
    rw [show acc ++ [c] ++ id = acc ++ c :: id by simp, hpos]

/-- Rendering a query renders its head element first. -/
theorem renderQuery_cons (e : QueryElement) (q : List QueryElement) :
    renderQuery (e :: q) = renderElement e ++ renderQuery q := by
  simp [renderQuery]

/-- A rendered query is a clean stopping point for read_field: it is empty
or starts with a dot or a bracket. -/
theorem renderQuery_stopper (q : List QueryElement) : fieldStopper (renderQuery q) := by
  cases q with
  | nil => trivial
  | cons e r =>
    rw [renderQuery_cons]
    cases e with
    | Field n => simp [renderElement, fieldStopper]
    | ArrayItem i => simp [renderElement, fieldStopper]

/-- Indexing just past a prefix reads the suffix's first character. -/
theorem get_after (pre l : List Char) : (pre ++ l).get? pre.length = l.get? 0 := by
  rw [List.get?_append_right (Nat.le_refl _), Nat.sub_self]

/-- Dropping exactly a prefix leaves the suffix. -/
theorem drop_after (pre l : List Char) : (pre ++ l).drop pre.length = l :=
  List.drop_left pre l

/-- The parse loop, run just past an already-parsed prefix, recovers
exactly the query whose rendering makes up the rest of the input. -/
theorem parse_of_render : ∀ (q : List QueryElement) (pre : List Char) (fuel : Nat),
    wfElements q = true → (renderQuery q).length < fuel →
    parseLoopA fuel ⟨pre ++ renderQuery q, pre.length⟩ = .ok q
  | q, pre, 0, hwf, hfuel => absurd hfuel (Nat.not_lt_zero _)
  | [], pre, fuel + 1, hwf, hfuel => by
    rw [parseLoopA]
    have hnext : Parser.next ⟨pre ++ renderQuery [], pre.length⟩ = .ok none := by
      rw [Parser.next]
      have hg : (pre ++ renderQuery []).get? pre.length = none := by
        rw [get_after]
        rfl
      simp only [hg]
    simp only [hnext]
  | .Field name :: q, pre, fuel + 1, hwf, hfuel => by
    obtain ⟨cs⟩ := name
    have hwfq : wfElements q = true := by
      simp only [wfElements, List.all_cons, Bool.and_eq_true] at hwf
      exact hwf.2
    have hwfn : wfFieldName ⟨cs⟩ = true := by
      simp only [wfElements, List.all_cons, Bool.and_eq_true] at hwf
      exact hwf.1
    have hcs_ne : cs ≠ [] := by
      simp only [wfFieldName, Bool.and_eq_true, Bool.not_eq_true'] at hwfn
      intro he
      rw [show String.toList ⟨cs⟩ = cs from rfl, he] at hwfn
      exact absurd hwfn.1 (by simp)
    have hchars : ∀ c ∈ cs, ¬(c = '.') ∧ ¬(c = '[') ∧ c.isWhitespace = false := by
      simp only [wfFieldName, Bool.and_eq_true, Bool.not_eq_true',
        List.all_eq_true, show String.toList ⟨cs⟩ = cs from rfl] at hwfn
      intro c hc
      have h2 := hwfn.2 c hc
      simp only [Bool.and_eq_true, Bool.not_eq_true', beq_eq_false_iff_ne] at h2
      exact ⟨h2.1.1, h2.1.2, h2.2⟩
    rw [renderQuery_cons, show renderElement (.Field ⟨cs⟩) = '.' :: cs from rfl,
      List.cons_append]
    have hpeek : (pre ++ ('.' :: (cs ++ renderQuery q))).get? pre.length =
        some '.' := by
      rw [get_after]
      rfl
    have hdrop : (pre ++ ('.' :: (cs ++ renderQuery q))).drop (pre.length + 1) =
        cs ++ renderQuery q := by
      rw [show pre ++ ('.' :: (cs ++ renderQuery q)) =
          (pre ++ ['.']) ++ (cs ++ renderQuery q) by simp,
        show pre.length + 1 = (pre ++ ['.']).length by simp, drop_after]
    have hcsE : cs.isEmpty = false := by
      cases cs with
      | nil => exact absurd rfl hcs_ne
      | cons a b => rfl
    have hread : Parser.read_field ⟨pre ++ ('.' :: (cs ++ renderQuery q)), pre.length⟩ =
        .ok (.Field ⟨cs⟩,
          ⟨pre ++ ('.' :: (cs ++ renderQuery q)), pre.length + 1 + cs.length⟩) := by
      rw [Parser.read_field]
      have hcons : Parser.consume
          ⟨pre ++ ('.' :: (cs ++ renderQuery q)), pre.length⟩ '.' =
          .ok ⟨pre ++ ('.' :: (cs ++ renderQuery q)), pre.length + 1⟩ := by
        have hadv : Parser.advance
            ⟨pre ++ ('.' :: (cs ++ renderQuery q)), pre.length⟩ =
            (some '.', ⟨pre ++ ('.' :: (cs ++ renderQuery q)), pre.length + 1⟩) := by
          rw [Parser.advance]
          rw [show (⟨pre ++ ('.' :: (cs ++ renderQuery q)), pre.length⟩ :
            Parser).peek = some '.' from hpeek]
        rw [Parser.consume, hadv]
        simp
      simp only [bind, Except.bind, hcons]
      have hloop : readFieldLoop
          ⟨pre ++ ('.' :: (cs ++ renderQuery q)), pre.length + 1⟩ [] =
          .ok (cs, ⟨pre ++ ('.' :: (cs ++ renderQuery q)),
            pre.length + 1 + cs.length⟩) := by
        rw [readFieldLoop]
        have hrw : (⟨pre ++ ('.' :: (cs ++ renderQuery q)), pre.length + 1⟩ :
            Parser).data.drop (pre.length + 1) = cs ++ renderQuery q := hdrop
        rw [hrw, readFieldLoopA_chars cs (renderQuery q) _ [] hchars
          (renderQuery_stopper q)]
        simp
      simp only [hloop]
      rw [if_neg (by simp [hcsE])]
    have hnext : Parser.next ⟨pre ++ ('.' :: (cs ++ renderQuery q)), pre.length⟩ =
        .ok (some (.Field ⟨cs⟩,
          ⟨pre ++ ('.' :: (cs ++ renderQuery q)), pre.length + 1 + cs.length⟩)) := by
      rw [Parser.next]
      simp only [hpeek]
      rw [if_neg (by decide), if_pos trivial, hread]
      rfl
    rw [parseLoopA]
    simp only [hnext]
    have hdata : pre ++ ('.' :: (cs ++ renderQuery q)) =
        (pre ++ '.' :: cs) ++ renderQuery q := by simp
    have hposE : pre.length + 1 + cs.length = (pre ++ '.' :: cs).length := by
      simp [List.length_append]
      omega
    rw [hdata, hposE, parse_of_render q (pre ++ '.' :: cs) fuel hwfq (by
      rw [renderQuery_cons, show renderElement (.Field ⟨cs⟩) = '.' :: cs from rfl]
        at hfuel
      simp only [List.length_append, List.length_cons] at hfuel
      omega)]
  | .ArrayItem i :: q, pre, fuel + 1, hwf, hfuel => by
    have hwfq : wfElements q = true := by
      simp only [wfElements, List.all_cons, Bool.and_eq_true] at hwf
      exact hwf.2
    obtain ⟨hval, hdig, hne⟩ := natDigits_spec i
    have hshape : renderElement (.ArrayItem i) ++ renderQuery q =
        '[' :: (natDigits i ++ (']' :: renderQuery q)) := by
      simp [renderElement]
    rw [renderQuery_cons, hshape]
    have hpeek : (pre ++ ('[' :: (natDigits i ++ (']' :: renderQuery q)))).get?
        pre.length = some '[' := by
      rw [get_after]
      rfl
    have hdrop : (pre ++ ('[' :: (natDigits i ++ (']' :: renderQuery q)))).drop
        (pre.length + 1) = natDigits i ++ (']' :: renderQuery q) := by
      rw [show pre ++ ('[' :: (natDigits i ++ (']' :: renderQuery q))) =
          (pre ++ ['[']) ++ (natDigits i ++ (']' :: renderQuery q)) by simp,
        show pre.length + 1 = (pre ++ ['[']).length by simp, drop_after]
    have hndE : (natDigits i).isEmpty = false := by
      cases hnd : natDigits i with
      | nil => exact absurd hnd hne
      | cons a b => rfl
    have hread : Parser.read_array
        ⟨pre ++ ('[' :: (natDigits i ++ (']' :: renderQuery q))), pre.length⟩ =
        .ok (.ArrayItem i,
          ⟨pre ++ ('[' :: (natDigits i ++ (']' :: renderQuery q))),
            pre.length + 1 + ((natDigits i).length + 1)⟩) := by
      rw [Parser.read_array]
      have hcons : Parser.consume
          ⟨pre ++ ('[' :: (natDigits i ++ (']' :: renderQuery q))), pre.length⟩ '[' =
          .ok ⟨pre ++ ('[' :: (natDigits i ++ (']' :: renderQuery q))),
            pre.length + 1⟩ := by
        have hadv : Parser.advance
            ⟨pre ++ ('[' :: (natDigits i ++ (']' :: renderQuery q))), pre.length⟩ =
            (some '[', ⟨pre ++ ('[' :: (natDigits i ++ (']' :: renderQuery q))),
              pre.length + 1⟩) := by
          rw [Parser.advance]
          rw [show (⟨pre ++ ('[' :: (natDigits i ++ (']' :: renderQuery q))),
            pre.length⟩ : Parser).peek = some '[' from hpeek]
        rw [Parser.consume, hadv]
        simp
      simp only [bind, Except.bind, hcons]
      have hloop : readArrayLoop
          ⟨pre ++ ('[' :: (natDigits i ++ (']' :: renderQuery q))),
            pre.length + 1⟩ [] =
          .ok (natDigits i,
            ⟨pre ++ ('[' :: (natDigits i ++ (']' :: renderQuery q))),
              pre.length + 1 + ((natDigits i).length + 1)⟩) := by
        rw [readArrayLoop]
        have hrw : (⟨pre ++ ('[' :: (natDigits i ++ (']' :: renderQuery q))),
            pre.length + 1⟩ : Parser).data.drop (pre.length + 1) =
            natDigits i ++ (']' :: renderQuery q) := hdrop
        rw [hrw, readArrayLoopA_digits (natDigits i) (renderQuery q) _ [] hdig]
        simp
      simp only [hloop]
      rw [if_neg (by simp [hndE]), hval]
    have hnext : Parser.next
        ⟨pre ++ ('[' :: (natDigits i ++ (']' :: renderQuery q))), pre.length⟩ =
        .ok (some (.ArrayItem i,
          ⟨pre ++ ('[' :: (natDigits i ++ (']' :: renderQuery q))),
            pre.length + 1 + ((natDigits i).length + 1)⟩)) := by
      rw [Parser.next]
      simp only [hpeek]
      rw [if_pos trivial, hread]
      rfl
    rw [parseLoopA]
    simp only [hnext]
    have hdata : pre ++ ('[' :: (natDigits i ++ (']' :: renderQuery q))) =
        (pre ++ '[' :: (natDigits i ++ [']'])) ++ renderQuery q := by simp
    have hposE : pre.length + 1 + ((natDigits i).length + 1) =
        (pre ++ '[' :: (natDigits i ++ [']'])).length := by
      simp [List.length_append]
      omega
    rw [hdata, hposE, parse_of_render q (pre ++ '[' :: (natDigits i ++ [']']))
      fuel hwfq (by
        rw [renderQuery_cons] at hfuel
        simp only [renderElement, List.length_append, List.length_cons] at hfuel
        omega)]

/-- C4 (counterexample).  The Display rendering is not always re-parseable:
the query [Field "a b"] renders as ".a b", and parsing that rendering fails
with BadField at index 1 instead of returning the query, because read_field
rejects whitespace inside an identifier. -/
theorem render_not_reparseable :
    renderQuery [QueryElement.Field "a b"] = ".a b".toList ∧
    parse_query (renderQuery [QueryElement.Field "a b"]) =
      .error (.BadField 1) :=
  ⟨rfl, rfl⟩

/-- C4 (amended).  For every non-empty query whose Field names the query
grammar can express (non-empty, free of dots, opening brackets and
whitespace), parsing the Display rendering yields the query again:
parse(render(q)) = Ok(q). -/
theorem render_parse_roundtrip (q : List QueryElement) (hq : q ≠ [])
    (hwf : wfElements q = true) :
    parse_query (renderQuery q) = .ok q := by
  rw [parse_query]
  have h := parse_of_render q [] ((renderQuery q).length + 1) hwf (by omega)
  simpa using h

/-- C4 (witness): the documented example .field.array[8] round-trips. -/
theorem render_parse_roundtrip_witness :
    ([QueryElement.Field "field", QueryElement.Field "array",
      QueryElement.ArrayItem 8] : List QueryElement) ≠ [] ∧
    wfElements [QueryElement.Field "field", QueryElement.Field "array",
      QueryElement.ArrayItem 8] = true ∧
    parse_query (renderQuery [QueryElement.Field "field",
      QueryElement.Field "array", QueryElement.ArrayItem 8]) =
      .ok [QueryElement.Field "field", QueryElement.Field "array",
        QueryElement.ArrayItem 8] :=
  ⟨by simp, by decide, render_parse_roundtrip _ (by simp) (by decide)⟩
